import Mathlib

/-!
Verification development for the `yt_live_link_saver` scripts.

The JavaScript source is shallowly embedded as executable Lean functions.
Files are modelled as `Option String` (`none` = file absent).  Network calls
and the system clock are modelled as explicit oracle parameters (an
`Except String _` for a call that can throw, a `String → Bool` for the
per-video playlist-insertion outcome, an `Int` for `Date.now()`).

Modelling notes, to be read next to the source:
* JavaScript string operations are modelled on `List Char` (`String.data`).
  JS `trim` / `\s` is modelled by `jsWhitespace`, restricted to the ASCII
  whitespace characters; exotic Unicode spaces are out of the model.
* `new URL(...)` (WHATWG) is modelled by `parseUrl`, a restricted parser
  covering `scheme://[userinfo@]host[:port]/path?search#hash` without
  percent-decoding, path normalisation, or port/host validation.  This is
  exact for the URL shapes the program itself constructs and consumes
  (bare watch/short/live URLs over the video-id alphabet).
* `URLSearchParams.get` is modelled without percent-decoding or `+`
  decoding, exact for values over the video-id alphabet.
* `String.prototype.toLowerCase` is modelled by `Char.toLower` per
  character (exact on ASCII).
* `line.split(/\s+/)` followed by taking the last element is applied by the
  source only to trimmed non-blank lines; on those it equals `lastTokenL`
  (the maximal whitespace-free suffix), which is how it is modelled.
-/

/-- The ASCII whitespace characters matched by JS `\s` / removed by `trim`
(Unicode spaces are outside the model). -/
def jsWhitespace (c : Char) : Bool :=
  c = ' ' || c = '\t' || c = '\n' || c = '\r' || c = '\x0b' || c = '\x0c'

/-- JS `String.prototype.trim` on a character list. -/
def jsTrimL (l : List Char) : List Char :=
  ((l.dropWhile jsWhitespace).reverse.dropWhile jsWhitespace).reverse

/-- JS `String.prototype.trim`. -/
def jsTrim (s : String) : String := ⟨jsTrimL s.data⟩

/-- JS `String.prototype.toLowerCase` (ASCII-exact model). -/
def jsToLower (s : String) : String := ⟨s.data.map Char.toLower⟩

/-- Split a character list at every character satisfying `p`, keeping empty
pieces (the behaviour of JS `split` on a single-character separator class). -/
def splitPred (p : Char → Bool) : List Char → List (List Char)
  | [] => [[]]
  | c :: rest =>
    match splitPred p rest with
    | [] => [[]]
    | t :: ts => if p c then [] :: t :: ts else (c :: t) :: ts

/-- The last whitespace-delimited token: `parts[parts.length - 1]` of
`stripped.split(/\s+/)`, for a trimmed non-blank `stripped`. -/
def lastTokenL (l : List Char) : List Char :=
  (l.reverse.takeWhile (fun c => !jsWhitespace c)).reverse

/-- Character class of a YouTube video id: `[a-zA-Z0-9_-]`. -/
def isValidIdChar (c : Char) : Bool :=
  c.isAlphanum || c = '-' || c = '_'

/-- A well-formed video id: exactly 11 characters over `[a-zA-Z0-9_-]`
(the source's regex test `/^[a-zA-Z0-9_-]+$/` plus `length === 11`). -/
def isValidVideoId (s : String) : Prop :=
  s.data.length = 11 ∧ ∀ c ∈ s.data, isValidIdChar c = true

instance (s : String) : Decidable (isValidVideoId s) := by
  unfold isValidVideoId; infer_instance

/-- Result of the restricted WHATWG-URL parse: hostname (raw case),
pathname, and the search string without its leading `?`. -/
structure UrlParts where
  host : List Char
  pathname : List Char
  search : List Char
deriving DecidableEq

/-- Characters allowed in a URL scheme (`[A-Za-z][A-Za-z0-9+.-]*`). -/
def isSchemeChar (c : Char) : Bool :=
  c.isAlpha || c.isDigit || c = '+' || c = '-' || c = '.'

def schemeOk : List Char → Bool
  | [] => false
  | c :: rest => c.isAlpha && rest.all isSchemeChar

def isAuthorityEnd (c : Char) : Bool := c = '/' || c = '?' || c = '#'

def isPathEnd (c : Char) : Bool := c = '?' || c = '#'

/-- The part of the authority after the last `@` (drops userinfo). -/
def afterLastAt (l : List Char) : List Char :=
  (l.reverse.takeWhile (fun c => c ≠ '@')).reverse

/-- Restricted model of `new URL(raw)`: `scheme://[userinfo@]host[:port]`
followed by pathname, `?search`, `#hash`.  For a special scheme the empty
path reads as `/`.  Returns `none` when there is no `://` after a
well-formed scheme (JS throws there). -/
def parseUrl (l : List Char) : Option UrlParts :=
  let rest0 := l.dropWhile (fun c => c ≠ ':')
  if rest0.take 3 = [':', '/', '/'] ∧ schemeOk (l.takeWhile (fun c => c ≠ ':')) = true then
    let rest := rest0.drop 3
    let authority := rest.takeWhile (fun c => !isAuthorityEnd c)
    let tail := rest.dropWhile (fun c => !isAuthorityEnd c)
    let host := (afterLastAt authority).takeWhile (fun c => c ≠ ':')
    let path0 := tail.takeWhile (fun c => !isPathEnd c)
    let afterPath := tail.dropWhile (fun c => !isPathEnd c)
    let search :=
      if afterPath.take 1 = ['?'] then (afterPath.drop 1).takeWhile (fun c => c ≠ '#')
      else []
    some ⟨host, if path0 = [] then ['/'] else path0, search⟩
  else none

/-- `URLSearchParams.get(name)`: first `&`-separated piece whose key (up to
the first `=`) equals `name`; value is what follows the `=` (empty when the
piece has no `=`).  No percent-decoding (see module comment). -/
def searchParamsGet (search : List Char) (name : List Char) : Option (List Char) :=
  (splitPred (fun c => c = '&') search).findSome? fun piece =>
    if piece.isEmpty then none
    else if piece.takeWhile (fun c => c ≠ '=') = name then
      some ((piece.dropWhile (fun c => c ≠ '=')).drop 1)
    else none

/-- `extractVideoIdFromUrlOrId` on a character list (the JS function body). -/
def extractCore (text : List Char) : Option (List Char) :=
  let raw := jsTrimL text
  if raw.isEmpty then none
  else if raw.length = 11 && raw.all isValidIdChar then some raw
  else
    match parseUrl raw with
    | none => none
    | some u =>
      let host := u.host.map Char.toLower
      if host = "youtu.be".data then
        let candidate := (u.pathname.dropWhile (fun c => c = '/')).takeWhile (fun c => c ≠ '/')
        if candidate.isEmpty then none else some candidate
      else if host = "youtube.com".data || ".youtube.com".data.isSuffixOf host then
        if u.pathname = "/watch".data then searchParamsGet u.search "v".data
        else if "/live/".data.isPrefixOf u.pathname then
          let candidate := (u.pathname.drop 6).takeWhile (fun c => c ≠ '/')
          if candidate.isEmpty then none else some candidate
        else none
      else none

/-- `extractVideoIdFromUrlOrId(text)`. -/
def extractVideoIdFromUrlOrId (text : String) : Option String :=
  (extractCore text.data).map fun l => ⟨l⟩

/-- Extract the truthy video id of one ledger/queue line: trim, skip blank
lines, take the last whitespace token, run the extractor, and keep the id
only when it is truthy (non-null, non-empty). -/
def truthyId (line : List Char) : Option (List Char) :=
  let stripped := jsTrimL line
  if stripped.isEmpty then none
  else
    match extractCore (lastTokenL stripped) with
    | some id => if id.isEmpty then none else some id
    | none => none

/-- Append `x` to `acc` unless already present (JS `Set.add` on a set that
is later iterated in insertion order). -/
def addIfNew (acc : List String) (x : String) : List String :=
  if acc.contains x then acc else acc ++ [x]

/-- Fold `addIfNew` over a list (`for (const id of ids) set.add(id)`). -/
def addUnique (acc : List String) (ids : List String) : List String :=
  ids.foldl addIfNew acc

/-- The set of video ids extractable from a ledger file's content, in first
occurrence order (`readExistingVideoIds` on existing content). -/
def extractedLedgerIds (content : String) : List String :=
  addUnique []
    ((splitPred (fun c => c = '\n') content.data).filterMap
      (fun line => (truthyId line).map (fun l => (⟨l⟩ : String))))

/-- `readExistingVideoIds(filePath)`: a missing file reads as the empty set. -/
def readExistingVideoIds : Option String → List String
  | none => []
  | some content => extractedLedgerIds content

/-- The canonical watch URL written to the ledger. -/
def watchUrl (videoId : String) : String :=
  "https://www.youtube.com/watch?v=" ++ videoId

/-- One appended ledger line (with trailing newline). -/
def ledgerLine (withTimestamp : Bool) (timestamp url : String) : String :=
  if withTimestamp then timestamp ++ "\t" ++ url ++ "\n" else url ++ "\n"

/-- Return value of `appendNewLiveLinks` together with the resulting file. -/
structure AppendResult where
  newContent : Option String
  savedVideoIds : List String
  savedUrls : List String
deriving DecidableEq

/-- The `for (const videoId of videoIds)` loop of `appendNewLiveLinks`:
returns the appended buffer, the saved ids, and the saved URLs. -/
def appendLoop (withTimestamp : Bool) (timestamp : String) :
    List String → List String → String × List String × List String
  | _, [] => ("", [], [])
  | existing, videoId :: rest =>
    if existing.contains videoId then appendLoop withTimestamp timestamp existing rest
    else
      let url := watchUrl videoId
      let r := appendLoop withTimestamp timestamp (existing ++ [videoId]) rest
      (ledgerLine withTimestamp timestamp url ++ r.1, videoId :: r.2.1, url :: r.2.2)

/-- `appendNewLiveLinks(outputPath, videoIds, { withTimestamp })`.  The clock
(`utcNowIsoSeconds`) is the explicit `timestamp` parameter. -/
def appendNewLiveLinks (content : Option String) (videoIds : List String)
    (withTimestamp : Bool) (timestamp : String) : AppendResult :=
  if videoIds.isEmpty then ⟨content, [], []⟩
  else
    let existing := readExistingVideoIds content
    let r := appendLoop withTimestamp timestamp existing videoIds
    ⟨if r.1 = "" then content else some (content.getD "" ++ r.1), r.2.1, r.2.2⟩

/-- `uniqueExactStrings(values)`: trim each value, drop blanks, keep the
first occurrence of each exact (case-sensitive) string. -/
def uniqueExactStringsAux (seen : List String) : List String → List String
  | [] => []
  | v :: rest =>
    let t := jsTrim v
    if t = "" then uniqueExactStringsAux seen rest
    else if seen.contains t then uniqueExactStringsAux seen rest
    else t :: uniqueExactStringsAux (t :: seen) rest

def uniqueExactStrings (values : List String) : List String :=
  uniqueExactStringsAux [] values

/-- `uniqueStrings(values)`: trim each value, drop blanks, keep the first
occurrence of each string up to lower-casing, with its original spelling. -/
def uniqueStringsAux (seen : List String) : List String → List String
  | [] => []
  | v :: rest =>
    let t := jsTrim v
    if t = "" then uniqueStringsAux seen rest
    else if seen.contains (jsToLower t) then uniqueStringsAux seen rest
    else t :: uniqueStringsAux (jsToLower t :: seen) rest

def uniqueStrings (values : List String) : List String :=
  uniqueStringsAux [] values

/-- Separator class of `split(/[,\s]+/)`. -/
def isSepChar (c : Char) : Bool := c = ',' || jsWhitespace c

/-- `splitCommaWhitespaceList(value)` for a string value.  Splitting on
each separator character and dropping empty pieces is observationally the
same as splitting on separator runs, because the source filters out falsy
(empty) pieces. -/
def splitCommaWhitespaceList (value : String) : List String :=
  ((splitPred isSepChar value.data).map (fun piece => jsTrim ⟨piece⟩)).filter
    (fun s => s ≠ "")

/-- `splitCommaWhitespaceList` including the `null`/`undefined` guard. -/
def splitCommaWhitespaceListOpt : Option String → List String
  | none => []
  | some v => splitCommaWhitespaceList v

/-- The raw channel reference list before deduplication: every `--channels`
argument split, flattened, or else the `YOUTUBE_CHANNELS` env value split. -/
def expandChannelRefs (argsChannels : List String) (envChannels : Option String) :
    List String :=
  if argsChannels.isEmpty then splitCommaWhitespaceListOpt envChannels
  else (argsChannels.map splitCommaWhitespaceList).flatten

/-- `getChannelInputs(args)` with the CLI list and env value as parameters. -/
def getChannelInputs (argsChannels : List String) (envChannels : Option String) :
    List String :=
  uniqueStrings (expandChannelRefs argsChannels envChannels)

/-- Specification-side definition (from the spec's words, for claim C10):
keep each reference's first occurrence under the key function, in order,
dropping the later duplicates. -/
def keepFirstBy (key : String → String) : List String → List String
  | [] => []
  | x :: rest =>
    x :: keepFirstBy key (rest.filter (fun y => key y != key x))
termination_by l => l.length
decreasing_by
  simp only [List.length_cons]
  exact Nat.lt_succ_of_le (List.length_filter_le _ _)

/-- `readVideoIdQueue(queuePath)`: extract the truthy id of each line in
order, then `uniqueExactStrings`.  A missing file reads as empty. -/
def readVideoIdQueue : Option String → List String
  | none => []
  | some content =>
    uniqueExactStrings
      ((splitPred (fun c => c = '\n') content.data).filterMap
        (fun line => (truthyId line).map (fun l => (⟨l⟩ : String))))

/-- `${ids.join("\n")}\n`. -/
def joinQueueLines (ids : List String) : String :=
  match ids with
  | [] => "\n"
  | [id] => id ++ "\n"
  | id :: rest => id ++ "\n" ++ joinQueueLines rest

/-- `writeVideoIdQueue(queuePath, videoIds)`: dedup, delete the file when
nothing remains, else write one id per line.  Returns the resulting file. -/
def writeVideoIdQueue (videoIds : List String) : Option String :=
  let ids := uniqueExactStrings videoIds
  if ids.isEmpty then none else some (joinQueueLines ids)

/-- One failed playlist insertion, as collected by `addVideoIdsToPlaylist`. -/
structure ItemFailure where
  videoId : String
  message : String
deriving DecidableEq

/-- Return value of `addVideoIdsToPlaylist`. -/
structure AddResult where
  addedCount : Nat
  failures : List ItemFailure
deriving DecidableEq

/-- `addVideoIdsToPlaylist(accessToken, playlistId, videoIds, ...)`: insert
each deduplicated id in order, collecting per-item failures and counting
successes.  `insertOk` is the oracle for the per-item API outcome and
`failMsg` the corresponding error message. -/
def addVideoIdsToPlaylist (insertOk : String → Bool) (failMsg : String → String)
    (videoIds : List String) : AddResult :=
  let ids := uniqueExactStrings videoIds
  { addedCount := (ids.filter (fun v => insertOk v)).length,
    failures := (ids.filter (fun v => !insertOk v)).map (fun v => ⟨v, failMsg v⟩) }

/-- Return value of `flushPlaylistQueue`. -/
structure FlushResult where
  playlistId : Option String
  addedCount : Nat
  failures : List ItemFailure
  remainingCount : Nat
deriving DecidableEq

/-- `flushPlaylistQueue` outcome: the resulting queue file plus the result. -/
structure FlushOutcome where
  queueFile : Option String
  result : FlushResult
deriving DecidableEq

/-- `flushPlaylistQueue(args, state, outputPath, newVideoIds, ...)`.  The
token exchange, playlist resolution, and per-item insertion are oracle
parameters; file-system errors are out of the model. -/
def flushPlaylistQueue (queueFile : Option String) (newVideoIds : List String)
    (ensurePlaylist : Bool) (tokenRes playlistRes : Except String String)
    (insertOk : String → Bool) (failMsg : String → String) : FlushOutcome :=
  let existingQueue := readVideoIdQueue queueFile
  if existingQueue.isEmpty && newVideoIds.isEmpty then
    if !ensurePlaylist then ⟨queueFile, ⟨none, 0, [], 0⟩⟩
    else
      match tokenRes with
      | .error e => ⟨queueFile, ⟨none, 0, [⟨"playlist", e⟩], 0⟩⟩
      | .ok _ =>
        match playlistRes with
        | .error e => ⟨queueFile, ⟨none, 0, [⟨"playlist", e⟩], 0⟩⟩
        | .ok pid => ⟨queueFile, ⟨some pid, 0, [], 0⟩⟩
  else
    let mergedQueue := uniqueExactStrings (existingQueue ++ newVideoIds)
    let queueFile1 := writeVideoIdQueue mergedQueue
    if mergedQueue.isEmpty then ⟨queueFile1, ⟨none, 0, [], 0⟩⟩
    else
      match tokenRes with
      | .error e => ⟨queueFile1, ⟨none, 0, [⟨"playlist", e⟩], mergedQueue.length⟩⟩
      | .ok _ =>
        match playlistRes with
        | .error e => ⟨queueFile1, ⟨none, 0, [⟨"playlist", e⟩], mergedQueue.length⟩⟩
        | .ok pid =>
          let result := addVideoIdsToPlaylist insertOk failMsg mergedQueue
          let failedIds := result.failures.map (fun f => f.videoId)
          let remaining := mergedQueue.filter (fun id => failedIds.contains id)
          ⟨writeVideoIdQueue remaining,
           ⟨some pid, result.addedCount, result.failures, remaining.length⟩⟩

/-- `syncOutputFileToPlaylist` outcome: the resulting queue file, the list
of ids actually handed to the insertion loop, and the reported result. -/
structure SyncOutcome where
  queueFile : Option String
  attempted : List String
  synced : Bool
  addedCount : Nat
  failures : List ItemFailure
  remainingCount : Nat
deriving DecidableEq

/-- `syncOutputFileToPlaylist(args, state, outputPath, ...)`: full-backfill
reconciliation.  `fetchRes` is the oracle for `fetchPlaylistVideoIdSet`
(the remote playlist membership). -/
def syncOutputFileToPlaylist (queueFile ledger : Option String)
    (tokenRes playlistRes : Except String String)
    (fetchRes : Except String (List String))
    (insertOk : String → Bool) (failMsg : String → String) : SyncOutcome :=
  let existingQueue := readVideoIdQueue queueFile
  let outputIds := readExistingVideoIds ledger
  let desiredIds := uniqueExactStrings (existingQueue ++ outputIds)
  if desiredIds.isEmpty then
    ⟨queueFile, [], true, 0, [], existingQueue.length⟩
  else
    match tokenRes with
    | .error e => ⟨queueFile, [], false, 0, [⟨"playlist", e⟩], desiredIds.length⟩
    | .ok _ =>
      match playlistRes with
      | .error e => ⟨queueFile, [], false, 0, [⟨"playlist", e⟩], desiredIds.length⟩
      | .ok _ =>
        match fetchRes with
        | .error e => ⟨queueFile, [], false, 0, [⟨"playlist", e⟩], desiredIds.length⟩
        | .ok alreadyInPlaylist =>
          let pending := desiredIds.filter (fun id => !alreadyInPlaylist.contains id)
          if pending.isEmpty then
            ⟨if existingQueue.isEmpty then queueFile else writeVideoIdQueue [],
             [], true, 0, [], 0⟩
          else
            let result := addVideoIdsToPlaylist insertOk failMsg pending
            let failedIds := result.failures.map (fun f => f.videoId)
            let remaining := pending.filter (fun id => failedIds.contains id)
            ⟨writeVideoIdQueue remaining, uniqueExactStrings pending, true,
             result.addedCount, result.failures, remaining.length⟩

/-- The `state.oauth` record: in-memory cached access token and its
recorded expiry (`Date.now()` milliseconds). -/
structure OauthTokenState where
  accessToken : Option String
  expiresAtMs : Int
deriving DecidableEq

/-- One step of `getYouTubeAccessToken`: whether the refresh-token exchange
was performed, the returned token (or thrown error), and the updated state. -/
structure TokenStep where
  didRefresh : Bool
  result : Except String String
  newState : OauthTokenState

/-- The cached-token guard of `getYouTubeAccessToken`: a non-empty cached
token whose recorded expiry is strictly more than 60 000 ms away. -/
def cacheUsable (st : OauthTokenState) (now : Int) : Bool :=
  match st.accessToken with
  | some tok => !(tok == "") && decide (st.expiresAtMs - now > 60000)
  | none => false

/-- `getYouTubeAccessToken(oauth, state, ...)`.  `envAccessToken` is the
pass-through token from env/flag; `refreshRes` is the oracle for
`refreshAccessToken` returning the new token and the optional TTL in
seconds (`expires_in`). -/
def getYouTubeAccessToken (envAccessToken : Option String) (st : OauthTokenState)
    (now : Int) (refreshRes : Except String (String × Option Int)) : TokenStep :=
  match envAccessToken with
  | some t => ⟨false, .ok t, st⟩
  | none =>
    if cacheUsable st now then ⟨false, .ok (st.accessToken.getD ""), st⟩
    else
      match refreshRes with
      | .error e => ⟨true, .error e, st⟩
      | .ok (tok, expiresInSeconds) =>
        let ttlMs := max 60000 (expiresInSeconds.getD 0 * 1000)
        ⟨true, .ok tok, ⟨some tok, now + ttlMs⟩⟩

/-- `liveStreamingDetails` of one item of the videos batch response.
`none` fields model absent / null / non-string values. -/
structure LiveStreamingDetails where
  actualStartTime : Option String
  actualEndTime : Option String
deriving DecidableEq

/-- One item of the `videos.list` batch response as read by
`filterCurrentlyLiveVideoIds`. -/
structure VideoItem where
  id : Option String
  liveBroadcastContent : Option String
  liveStreamingDetails : Option LiveStreamingDetails
deriving DecidableEq

/-- The per-item classification of `filterCurrentlyLiveVideoIds`:
`isLiveBySnippet || isLiveByDetails`. -/
def itemIsLive (item : VideoItem) : Bool :=
  let isLiveBySnippet := item.liveBroadcastContent == some "live"
  let isLiveByDetails :=
    match item.liveStreamingDetails with
    | some d =>
      (match d.actualStartTime with
       | some s => !(s == "")
       | none => false) && (d.actualEndTime == none)
    | none => false
  isLiveBySnippet || isLiveByDetails

/-- `filterCurrentlyLiveVideoIds` applied to the parsed response items:
collect the string ids of the items classified live, deduplicated. -/
def filterCurrentlyLiveVideoIds (items : List VideoItem) : List String :=
  uniqueExactStrings (items.filterMap fun item =>
    match item.id with
    | some v => if v != "" && itemIsLive item then some v else none
    | none => none)

/-- The error line `[${channelInput}] ${message}` pushed by `runOnce`. -/
def channelErrEntry (input msg : String) : String :=
  "[" ++ input ++ "] " ++ msg

/-- The per-channel loop of `runOnce`.  `oracle` maps a channel input to
its discovered live video ids, or to the thrown error; `total` is the
configured channel count (`channelInputs.length`). -/
def processChannelsAux (oracle : String → Except String (List String)) (total : Nat) :
    List String → List String → List String → Except String (List String × List String)
  | [], acc, errs => .ok (acc, errs)
  | input :: rest, acc, errs =>
    match oracle input with
    | .ok ids => processChannelsAux oracle total rest (addUnique acc ids) errs
    | .error e =>
      if total = 1 then .error e
      else processChannelsAux oracle total rest acc (errs ++ [channelErrEntry input e])

/-- The channel loop of `runOnce` over the configured inputs. -/
def processChannels (oracle : String → Except String (List String))
    (inputs : List String) : Except String (List String × List String) :=
  processChannelsAux oracle inputs.length inputs [] []

/-- The merged live set over the channels whose discovery succeeded, in
iteration order (a set union). -/
def successfulLiveUnion (oracle : String → Except String (List String))
    (inputs : List String) : List String :=
  inputs.foldl
    (fun acc input =>
      match oracle input with
      | .ok ids => addUnique acc ids
      | .error _ => acc) []

/-- The collected error lines of the channels whose discovery failed. -/
def failedChannelErrors (oracle : String → Except String (List String))
    (inputs : List String) : List String :=
  inputs.filterMap fun input =>
    match oracle input with
    | .ok _ => none
    | .error e => some (channelErrEntry input e)

/-- The save-then-incremental-flush path of `runOnce` (live ids found,
playlist saving enabled, no backfill needed): append the new links to the
ledger, then flush the retry queue with the newly saved ids. -/
def runSaveAndFlush (ledger queueFile : Option String) (liveVideoIds : List String)
    (withTimestamp : Bool) (timestamp : String)
    (tokenRes playlistRes : Except String String)
    (insertOk : String → Bool) (failMsg : String → String) :
    Option String × FlushOutcome :=
  let saved := appendNewLiveLinks ledger liveVideoIds withTimestamp timestamp
  (saved.newContent,
   flushPlaylistQueue queueFile saved.savedVideoIds false tokenRes playlistRes
     insertOk failMsg)

/-- A ledger file whose every record line is newline-terminated (absent or
empty files qualify).  Content the program itself writes always is. -/
def ledgerTerminated : Option String → Prop
  | none => True
  | some c => c.data = [] ∨ c.data.getLast? = some '\n'

instance (content : Option String) : Decidable (ledgerTerminated content) := by
  unfold ledgerTerminated
  match content with
  | none => exact inferInstanceAs (Decidable True)
  | some c => infer_instance

/-- The number of non-blank lines of a ledger file. -/
def ledgerNonblankLineCount (content : Option String) : Nat :=
  ((splitPred (fun c => c = '\n') (content.getD "").data).filter
    (fun l => !(jsTrimL l).isEmpty)).length

theorem all_mem_true {p : Char → Bool} {l : List Char} (h : l.all p = true) :
    ∀ c ∈ l, p c = true := List.all_eq_true.mp h

theorem takeWhile_append_all (p : Char → Bool) (a b : List Char)
    (h : ∀ c ∈ a, p c = true) : (a ++ b).takeWhile p = a ++ b.takeWhile p := by
  induction a with
  | nil => simp
  | cons x xs ih =>
    have hx := h x (List.mem_cons_self x xs)
    simp only [List.cons_append, List.takeWhile_cons, hx, if_true]
    exact congrArg (x :: ·) (ih fun c hc => h c (List.mem_cons_of_mem _ hc))

theorem dropWhile_append_all (p : Char → Bool) (a b : List Char)
    (h : ∀ c ∈ a, p c = true) : (a ++ b).dropWhile p = b.dropWhile p := by
  induction a with
  | nil => simp
  | cons x xs ih =>
    have hx := h x (List.mem_cons_self x xs)
    simp only [List.cons_append, List.dropWhile_cons, hx, if_true]
    exact ih fun c hc => h c (List.mem_cons_of_mem _ hc)

theorem takeWhile_stop (p : Char → Bool) (a : List Char) (s : Char) (b : List Char)
    (ha : a.all p = true) (hs : p s = false) : (a ++ s :: b).takeWhile p = a := by
  rw [takeWhile_append_all p a (s :: b) (all_mem_true ha), List.takeWhile_cons, hs]
  simp

theorem dropWhile_stop (p : Char → Bool) (a : List Char) (s : Char) (b : List Char)
    (ha : a.all p = true) (hs : p s = false) : (a ++ s :: b).dropWhile p = s :: b := by
  rw [dropWhile_append_all p a (s :: b) (all_mem_true ha), List.dropWhile_cons, hs]
  simp

theorem takeWhile_run (p : Char → Bool) (a b : List Char)
    (ha : a.all p = true) (hb : ∀ c ∈ b, p c = true) : (a ++ b).takeWhile p = a ++ b := by
  rw [takeWhile_append_all p a b (all_mem_true ha), List.takeWhile_eq_self_iff.mpr hb]

theorem dropWhile_run (p : Char → Bool) (a b : List Char)
    (ha : a.all p = true) (hb : ∀ c ∈ b, p c = true) : (a ++ b).dropWhile p = [] := by
  rw [dropWhile_append_all p a b (all_mem_true ha), List.dropWhile_eq_nil_iff.mpr hb]

theorem valid_char_ne (c d : Char) (hc : isValidIdChar c = true)
    (hd : isValidIdChar d = false) : c ≠ d := by
  intro h
  rw [h, hd] at hc
  exact Bool.false_ne_true hc

theorem valid_char_not_ws (c : Char) (hc : isValidIdChar c = true) :
    jsWhitespace c = false := by
  by_contra hws
  have hws' : jsWhitespace c = true := by revert hws; cases jsWhitespace c <;> simp
  have : ((((c = ' ' ∨ c = '\t') ∨ c = '\n') ∨ c = '\r') ∨ c = '\x0b') ∨ c = '\x0c' := by
    simpa [jsWhitespace] using hws'
  rcases this with ((((h | h) | h) | h) | h) | h <;> (subst h; exact absurd hc (by decide))

theorem dropWhile_eq_self_of_all (p : Char → Bool) (l : List Char)
    (h : ∀ c ∈ l, p c = false) : l.dropWhile p = l := by
  cases l with
  | nil => rfl
  | cons x xs =>
    rw [List.dropWhile_cons, h x (List.mem_cons_self x xs)]
    simp

theorem jsTrimL_eq_self (l : List Char) (h : ∀ c ∈ l, jsWhitespace c = false) :
    jsTrimL l = l := by
  unfold jsTrimL
  rw [dropWhile_eq_self_of_all _ _ h,
      dropWhile_eq_self_of_all _ _ (fun c hc => h c (List.mem_reverse.mp hc)),
      List.reverse_reverse]

theorem splitPred_ne_nil (p : Char → Bool) (l : List Char) : splitPred p l ≠ [] := by
  induction l with
  | nil => simp [splitPred]
  | cons c rest ih =>
    simp only [splitPred]
    cases hsp : splitPred p rest with
    | nil => exact absurd hsp ih
    | cons t ts => by_cases hp : p c <;> simp [hp]

theorem splitPred_append_sep (p : Char → Bool) (a b : List Char) (c : Char)
    (hc : p c = true) : splitPred p (a ++ c :: b) = splitPred p a ++ splitPred p b := by
  induction a with
  | nil =>
    cases hsp : splitPred p b with
    | nil => exact absurd hsp (splitPred_ne_nil p b)
    | cons t ts => simp [splitPred, hsp, hc]
  | cons x xs ih =>
    cases hsp : splitPred p xs with
    | nil => exact absurd hsp (splitPred_ne_nil p xs)
    | cons t ts =>
      simp only [List.cons_append, splitPred, List.append_eq]
      rw [ih, hsp]
      by_cases hp : p x <;> simp [hp]

theorem splitPred_no_sep (p : Char → Bool) (l : List Char)
    (h : ∀ c ∈ l, p c = false) : splitPred p l = [l] := by
  induction l with
  | nil => rfl
  | cons x xs ih =>
    have hx := h x (List.mem_cons_self x xs)
    simp only [splitPred, ih (fun c hc => h c (List.mem_cons_of_mem _ hc)), hx]
    simp

theorem parseUrl_watch (L : List Char) (hval : ∀ c ∈ L, isValidIdChar c = true) :
    parseUrl ("https://www.youtube.com/watch?v=".data ++ L) =
      some ⟨"www.youtube.com".data, "/watch".data, "v=".data ++ L⟩ := by
  have hvne : ∀ (d : Char), isValidIdChar d = false → ∀ c ∈ L, c ≠ d :=
    fun d hd c hc => valid_char_ne c d (hval c hc) hd
  have e1 : "https://www.youtube.com/watch?v=".data ++ L =
      "https".data ++ ':' :: ("//www.youtube.com/watch?v=".data ++ L) := rfl
  have s1 : ("https://www.youtube.com/watch?v=".data ++ L).dropWhile
      (fun c => decide (c ≠ ':')) = ':' :: ("//www.youtube.com/watch?v=".data ++ L) := by
    rw [e1]; exact dropWhile_stop _ _ _ _ (by decide) (by decide)
  have s2 : ("https://www.youtube.com/watch?v=".data ++ L).takeWhile
      (fun c => decide (c ≠ ':')) = "https".data := by
    rw [e1]; exact takeWhile_stop _ _ _ _ (by decide) (by decide)
  have s9 : (':' :: ("//www.youtube.com/watch?v=".data ++ L)).drop 3 =
      "www.youtube.com".data ++ '/' :: ("watch?v=".data ++ L) := rfl
  have s3 : ("www.youtube.com".data ++ '/' :: ("watch?v=".data ++ L)).takeWhile
      (fun c => !isAuthorityEnd c) = "www.youtube.com".data :=
    takeWhile_stop _ _ _ _ (by decide) (by decide)
  have s4 : ("www.youtube.com".data ++ '/' :: ("watch?v=".data ++ L)).dropWhile
      (fun c => !isAuthorityEnd c) = '/' :: ("watch?v=".data ++ L) :=
    dropWhile_stop _ _ _ _ (by decide) (by decide)
  have e4 : '/' :: ("watch?v=".data ++ L) = "/watch".data ++ '?' :: ("v=".data ++ L) := rfl
  have s5 : ('/' :: ("watch?v=".data ++ L)).takeWhile (fun c => !isPathEnd c) =
      "/watch".data := by
    rw [e4]; exact takeWhile_stop _ _ _ _ (by decide) (by decide)
  have s6 : ('/' :: ("watch?v=".data ++ L)).dropWhile (fun c => !isPathEnd c) =
      '?' :: ("v=".data ++ L) := by
    rw [e4]; exact dropWhile_stop _ _ _ _ (by decide) (by decide)
  have s7 : (afterLastAt "www.youtube.com".data).takeWhile (fun c => decide (c ≠ ':')) =
      "www.youtube.com".data := by decide
  have s8 : (("v=".data ++ L)).takeWhile (fun c => decide (c ≠ '#')) = "v=".data ++ L :=
    takeWhile_run _ _ _ (by decide)
      (fun c hc => decide_eq_true (hvne '#' (by decide) c hc))
  unfold parseUrl
  simp only [s1, s2, s9, s3, s4, s5, s6, s7]
  rw [if_pos ⟨rfl, by decide⟩]
  simp only [List.take, List.drop, s8]
  simp

theorem valid_not_pathEnd (L : List Char) (hval : ∀ c ∈ L, isValidIdChar c = true) :
    ∀ c ∈ L, (!isPathEnd c) = true := by
  intro c hc
  have h1 : c ≠ '?' := valid_char_ne c '?' (hval c hc) (by decide)
  have h2 : c ≠ '#' := valid_char_ne c '#' (hval c hc) (by decide)
  simp [isPathEnd, h1, h2]

theorem parseUrl_short (L : List Char) (hval : ∀ c ∈ L, isValidIdChar c = true) :
    parseUrl ("https://youtu.be/".data ++ L) =
      some ⟨"youtu.be".data, '/' :: L, []⟩ := by
  have e1 : "https://youtu.be/".data ++ L =
      "https".data ++ ':' :: ("//youtu.be/".data ++ L) := rfl
  have s1 : ("https://youtu.be/".data ++ L).dropWhile (fun c => decide (c ≠ ':')) =
      ':' :: ("//youtu.be/".data ++ L) := by
    rw [e1]; exact dropWhile_stop _ _ _ _ (by decide) (by decide)
  have s2 : ("https://youtu.be/".data ++ L).takeWhile (fun c => decide (c ≠ ':')) =
      "https".data := by
    rw [e1]; exact takeWhile_stop _ _ _ _ (by decide) (by decide)
  have s9 : (':' :: ("//youtu.be/".data ++ L)).drop 3 =
      "youtu.be".data ++ '/' :: L := rfl
  have s3 : ("youtu.be".data ++ '/' :: L).takeWhile (fun c => !isAuthorityEnd c) =
      "youtu.be".data := takeWhile_stop _ _ _ _ (by decide) (by decide)
  have s4 : ("youtu.be".data ++ '/' :: L).dropWhile (fun c => !isAuthorityEnd c) =
      '/' :: L := dropWhile_stop _ _ _ _ (by decide) (by decide)
  have e5 : '/' :: L = ['/'] ++ L := rfl
  have s5 : ('/' :: L).takeWhile (fun c => !isPathEnd c) = '/' :: L := by
    rw [e5]; exact takeWhile_run _ _ _ (by decide) (valid_not_pathEnd L hval)
  have s6 : ('/' :: L).dropWhile (fun c => !isPathEnd c) = [] := by
    rw [e5]; exact dropWhile_run _ _ _ (by decide) (valid_not_pathEnd L hval)
  unfold parseUrl
  simp only [s1, s2, s9, s3, s4, s5, s6]
  rw [if_pos ⟨rfl, by decide⟩]
  simp [afterLastAt]

theorem parseUrl_live (L : List Char) (hval : ∀ c ∈ L, isValidIdChar c = true) :
    parseUrl ("https://www.youtube.com/live/".data ++ L) =
      some ⟨"www.youtube.com".data, "/live/".data ++ L, []⟩ := by
  have e1 : "https://www.youtube.com/live/".data ++ L =
      "https".data ++ ':' :: ("//www.youtube.com/live/".data ++ L) := rfl
  have s1 : ("https://www.youtube.com/live/".data ++ L).dropWhile
      (fun c => decide (c ≠ ':')) = ':' :: ("//www.youtube.com/live/".data ++ L) := by
    rw [e1]; exact dropWhile_stop _ _ _ _ (by decide) (by decide)
  have s2 : ("https://www.youtube.com/live/".data ++ L).takeWhile
      (fun c => decide (c ≠ ':')) = "https".data := by
    rw [e1]; exact takeWhile_stop _ _ _ _ (by decide) (by decide)
  have s9 : (':' :: ("//www.youtube.com/live/".data ++ L)).drop 3 =
      "www.youtube.com".data ++ ("/live/".data ++ L) := rfl
  have s3 : ("www.youtube.com".data ++ ("/live/".data ++ L)).takeWhile
      (fun c => !isAuthorityEnd c) = "www.youtube.com".data := by
    have e3 : "www.youtube.com".data ++ ("/live/".data ++ L) =
        "www.youtube.com".data ++ '/' :: ("live/".data ++ L) := rfl
    rw [e3]; exact takeWhile_stop _ _ _ _ (by decide) (by decide)
  have s4 : ("www.youtube.com".data ++ ("/live/".data ++ L)).dropWhile
      (fun c => !isAuthorityEnd c) = "/live/".data ++ L := by
    have e3 : "www.youtube.com".data ++ ("/live/".data ++ L) =
        "www.youtube.com".data ++ '/' :: ("live/".data ++ L) := rfl
    rw [e3]; exact dropWhile_stop _ _ _ _ (by decide) (by decide)
  have s5 : ("/live/".data ++ L).takeWhile (fun c => !isPathEnd c) =
      "/live/".data ++ L :=
    takeWhile_run _ _ _ (by decide) (valid_not_pathEnd L hval)
  have s6 : ("/live/".data ++ L).dropWhile (fun c => !isPathEnd c) = [] :=
    dropWhile_run _ _ _ (by decide) (valid_not_pathEnd L hval)
  unfold parseUrl
  simp only [s1, s2, s9, s3, s4, s5, s6]
  rw [if_pos ⟨rfl, by decide⟩]
  have hne : "/live/".data ++ L ≠ [] := by simp
  simp [afterLastAt, hne]

theorem searchParamsGet_v (L : List Char)
    (hamp : ∀ c ∈ L, isValidIdChar c = true) :
    searchParamsGet ("v=".data ++ L) "v".data = some L := by
  have hsep : ∀ c ∈ "v=".data ++ L, (fun c => decide (c = '&')) c = false := by
    intro c hc
    rcases List.mem_append.mp hc with h | h
    · fin_cases h <;> decide
    · simp [valid_char_ne c '&' (hamp c h) (by decide)]
  unfold searchParamsGet
  rw [splitPred_no_sep _ _ hsep]
  have e1 : "v=".data ++ L = 'v' :: '=' :: L := rfl
  have s1 : ('v' :: '=' :: L).takeWhile (fun c => decide (c ≠ '=')) = ['v'] := by
    have : 'v' :: '=' :: L = ['v'] ++ '=' :: L := rfl
    rw [this]; exact takeWhile_stop _ _ _ _ (by decide) (by decide)
  have s2 : ('v' :: '=' :: L).dropWhile (fun c => decide (c ≠ '=')) = '=' :: L := by
    have : 'v' :: '=' :: L = ['v'] ++ '=' :: L := rfl
    rw [this]; exact dropWhile_stop _ _ _ _ (by decide) (by decide)
  simp [List.findSome?, e1, s1, s2]

theorem valid_nonempty (L : List Char) (hlen : L.length = 11) : L ≠ [] := by
  intro h; rw [h] at hlen; exact absurd hlen (by decide)

theorem extractCore_valid (L : List Char) (hlen : L.length = 11)
    (hval : ∀ c ∈ L, isValidIdChar c = true) : extractCore L = some L := by
  have htrim : jsTrimL L = L :=
    jsTrimL_eq_self L (fun c hc => valid_char_not_ws c (hval c hc))
  have hie : L.isEmpty = false := by
    cases L with
    | nil => exact absurd hlen (by decide)
    | cons a l => rfl
  have hall : L.all isValidIdChar = true := List.all_eq_true.mpr hval
  simp [extractCore, htrim, hie, hlen, hall]

theorem concat_nonws (P L : List Char) (hP : P.all (fun c => !jsWhitespace c) = true)
    (hval : ∀ c ∈ L, isValidIdChar c = true) :
    ∀ c ∈ P ++ L, jsWhitespace c = false := by
  intro c hc
  rcases List.mem_append.mp hc with h | h
  · simpa using all_mem_true hP c h
  · exact valid_char_not_ws c (hval c h)

theorem extractCore_watchUrl (L : List Char) (hlen : L.length = 11)
    (hval : ∀ c ∈ L, isValidIdChar c = true) :
    extractCore ("https://www.youtube.com/watch?v=".data ++ L) = some L := by
  have htrim : jsTrimL ("https://www.youtube.com/watch?v=".data ++ L) =
      "https://www.youtube.com/watch?v=".data ++ L :=
    jsTrimL_eq_self _ (concat_nonws _ _ (by decide) hval)
  have hie : ("https://www.youtube.com/watch?v=".data ++ L).isEmpty = false := rfl
  have hlen43 : ("https://www.youtube.com/watch?v=".data ++ L).length = 43 := by
    rw [List.length_append, hlen]; rfl
  have hmap : "www.youtube.com".data.map Char.toLower = "www.youtube.com".data := by decide
  have hspg : searchParamsGet ('v' :: '=' :: L) ['v'] = some L := searchParamsGet_v L hval
  have hsuf : ".youtube.com".data <:+ "www.youtube.com".data := by
    have e : "www.youtube.com".data = "www".data ++ ".youtube.com".data := rfl
    rw [e]; exact List.suffix_append _ _
  simp only [extractCore, htrim, hie, hlen43, parseUrl_watch L hval, hmap]
  simp [hspg, hsuf]

theorem extractCore_shortUrl (L : List Char) (hlen : L.length = 11)
    (hval : ∀ c ∈ L, isValidIdChar c = true) :
    extractCore ("https://youtu.be/".data ++ L) = some L := by
  have htrim : jsTrimL ("https://youtu.be/".data ++ L) =
      "https://youtu.be/".data ++ L :=
    jsTrimL_eq_self _ (concat_nonws _ _ (by decide) hval)
  have hie : ("https://youtu.be/".data ++ L).isEmpty = false := rfl
  have hlen28 : ("https://youtu.be/".data ++ L).length = 28 := by
    rw [List.length_append, hlen]; rfl
  have hmap : "youtu.be".data.map Char.toLower = "youtu.be".data := by decide
  have hdrop : ('/' :: L).dropWhile (fun c => decide (c = '/')) = L := by
    rw [List.dropWhile_cons]
    simp only [decide_True, if_true]
    exact dropWhile_eq_self_of_all _ _
      (fun c hc => by simp [valid_char_ne c '/' (hval c hc) (by decide)])
  have htake : L.takeWhile (fun c => decide (c ≠ '/')) = L :=
    List.takeWhile_eq_self_iff.mpr
      (fun c hc => decide_eq_true (valid_char_ne c '/' (hval c hc) (by decide)))
  have hieL : L.isEmpty = false := by
    cases L with
    | nil => exact absurd hlen (by decide)
    | cons a l => rfl
  have hpos : 0 < L.length := by rw [hlen]; decide
  have h0 : ¬ L[0] = '/' := by
    have hm : L[0] ∈ L := List.getElem_mem hpos
    exact valid_char_ne _ '/' (hval _ hm) (by decide)
  have hslash : ∀ x ∈ L, ¬ x = '/' :=
    fun x hx => valid_char_ne x '/' (hval x hx) (by decide)
  simp only [extractCore, htrim, hie, hlen28, parseUrl_short L hval, hmap]
  simp [hdrop, htake, hieL, hpos, h0]
  exact hslash

theorem extractCore_liveUrl (L : List Char) (hlen : L.length = 11)
    (hval : ∀ c ∈ L, isValidIdChar c = true) :
    extractCore ("https://www.youtube.com/live/".data ++ L) = some L := by
  have htrim : jsTrimL ("https://www.youtube.com/live/".data ++ L) =
      "https://www.youtube.com/live/".data ++ L :=
    jsTrimL_eq_self _ (concat_nonws _ _ (by decide) hval)
  have hie : ("https://www.youtube.com/live/".data ++ L).isEmpty = false := rfl
  have hlen40 : ("https://www.youtube.com/live/".data ++ L).length = 40 := by
    rw [List.length_append, hlen]; rfl
  have hmap : "www.youtube.com".data.map Char.toLower = "www.youtube.com".data := by decide
  have hpref : "/live/".data.isPrefixOf ("/live/".data ++ L) = true := by
    simp [ List.isPrefixOf_iff_prefix]
  have hne : ("/live/".data ++ L) ≠ "/watch".data := by
    intro h
    have := congrArg List.length h
    rw [List.length_append, hlen] at this
    exact absurd this (by decide)
  have hdrop6 : ("/live/".data ++ L).drop 6 = L := rfl
  have htake : L.takeWhile (fun c => decide (c ≠ '/')) = L :=
    List.takeWhile_eq_self_iff.mpr
      (fun c hc => decide_eq_true (valid_char_ne c '/' (hval c hc) (by decide)))
  have hieL : L.isEmpty = false := by
    cases L with
    | nil => exact absurd hlen (by decide)
    | cons a l => rfl
  have hslash : ∀ x ∈ L, ¬ x = '/' :=
    fun x hx => valid_char_ne x '/' (hval x hx) (by decide)
  have hieL' : L ≠ [] := valid_nonempty L hlen
  have hsuf : ".youtube.com".data <:+ "www.youtube.com".data := by
    have e : "www.youtube.com".data = "www".data ++ ".youtube.com".data := rfl
    rw [e]; exact List.suffix_append _ _
  have hpos : 0 < L.length := by rw [hlen]; decide
  have h0 : ¬ L[0] = '/' := by
    have hm : L[0] ∈ L := List.getElem_mem hpos
    exact valid_char_ne _ '/' (hval _ hm) (by decide)
  simp only [extractCore, htrim, hie, hlen40, parseUrl_live L hval, hmap]
  simp [hpref, hne, hdrop6, htake, hieL, hieL']
  exact ⟨hsuf, ⟨hpos, h0⟩, hslash⟩

/-- C2: for every valid 11-character video id `v`, the extractor returns
exactly `v` for the bare token, the watch URL, the short URL, and the live
URL, so a URL and its bare id normalize to the same key. -/
theorem extractor_round_trip (v : String) (h : isValidVideoId v) :
    extractVideoIdFromUrlOrId v = some v ∧
    extractVideoIdFromUrlOrId ("https://www.youtube.com/watch?v=" ++ v) = some v ∧
    extractVideoIdFromUrlOrId ("https://youtu.be/" ++ v) = some v ∧
    extractVideoIdFromUrlOrId ("https://www.youtube.com/live/" ++ v) = some v := by
  obtain ⟨hlen, hval⟩ := h
  unfold extractVideoIdFromUrlOrId
  refine ⟨?_, ?_, ?_, ?_⟩
  · rw [extractCore_valid v.data hlen hval]; rfl
  · show (extractCore ("https://www.youtube.com/watch?v=".data ++ v.data)).map _ = _
    rw [extractCore_watchUrl v.data hlen hval]; rfl
  · show (extractCore ("https://youtu.be/".data ++ v.data)).map _ = _
    rw [extractCore_shortUrl v.data hlen hval]; rfl
  · show (extractCore ("https://www.youtube.com/live/".data ++ v.data)).map _ = _
    rw [extractCore_liveUrl v.data hlen hval]; rfl

theorem extractor_round_trip_witness :
    isValidVideoId "abc12345678" ∧
    extractVideoIdFromUrlOrId "abc12345678" = some "abc12345678" ∧
    extractVideoIdFromUrlOrId "https://www.youtube.com/watch?v=abc12345678" =
      some "abc12345678" ∧
    extractVideoIdFromUrlOrId "https://youtu.be/abc12345678" = some "abc12345678" ∧
    extractVideoIdFromUrlOrId "https://www.youtube.com/live/abc12345678" =
      some "abc12345678" :=
  ⟨by decide, extractor_round_trip "abc12345678" (by decide)⟩

/-- C6: an item of the video-details batch response is classified live if
and only if its `liveBroadcastContent` equals `"live"`, or its
`liveStreamingDetails` carry a non-empty `actualStartTime` string and no
`actualEndTime` (the OR of the two independent liveness signals). -/
theorem liveness_or_of_two_signals (item : VideoItem) :
    itemIsLive item = true ↔
      (item.liveBroadcastContent = some "live" ∨
        ∃ d, item.liveStreamingDetails = some d ∧
          (∃ s, d.actualStartTime = some s ∧ s ≠ "") ∧ d.actualEndTime = none) := by
  unfold itemIsLive
  cases hd : item.liveStreamingDetails with
  | none =>
    simp [hd]
  | some d =>
    cases hs : d.actualStartTime with
    | none => simp [hd, hs]
    | some s =>
      cases he : d.actualEndTime with
      | none => by_cases hse : s = "" <;> simp [hd, hs, he, hse]
      | some e => simp [hd, hs, he]

/-- C8: with no pass-through token and a non-empty cached access token,
`getYouTubeAccessToken` reuses the cache iff strictly more than 60 seconds
(60 000 ms) remain before the recorded expiry; otherwise it performs the
refresh-token exchange and, on success, caches the new token with expiry
`now + max(60 s, returned TTL)`. -/
theorem access_token_expiry_guard (st : OauthTokenState) (now : Int)
    (refreshRes : Except String (String × Option Int)) (tok : String)
    (hcache : st.accessToken = some tok) (hne : tok ≠ "") :
    ((getYouTubeAccessToken none st now refreshRes).didRefresh = false ↔
        st.expiresAtMs - now > 60000) ∧
    (st.expiresAtMs - now > 60000 →
      (getYouTubeAccessToken none st now refreshRes).result = .ok tok ∧
      (getYouTubeAccessToken none st now refreshRes).newState = st) ∧
    (st.expiresAtMs - now ≤ 60000 →
      ∀ t2 ttl, refreshRes = .ok (t2, ttl) →
        (getYouTubeAccessToken none st now refreshRes).didRefresh = true ∧
        (getYouTubeAccessToken none st now refreshRes).result = .ok t2 ∧
        (getYouTubeAccessToken none st now refreshRes).newState =
          ⟨some t2, now + max 60000 (ttl.getD 0 * 1000)⟩) := by
  have hcu : cacheUsable st now = decide (st.expiresAtMs - now > 60000) := by
    unfold cacheUsable
    rw [hcache]
    simp [hne]
  by_cases hgt : st.expiresAtMs - now > 60000
  · have hcu' : cacheUsable st now = true := by rw [hcu]; exact decide_eq_true hgt
    refine ⟨by simp [getYouTubeAccessToken, hcu', hgt], fun _ => ?_, fun hle => ?_⟩
    · simp [getYouTubeAccessToken, hcu', hcache]
    · exact absurd hgt (not_lt.mpr hle)
  · have hcu' : cacheUsable st now = false := by
      rw [hcu]; exact decide_eq_false hgt
    refine ⟨by cases refreshRes <;> simp [getYouTubeAccessToken, hcu', hgt],
        fun hgt' => absurd hgt' hgt, fun _ t2 ttl hok => ?_⟩
    subst hok
    simp [getYouTubeAccessToken, hcu']

theorem access_token_expiry_guard_witness :
    (getYouTubeAccessToken none ⟨some "tok", 100000⟩ 0 (.ok ("t2", some 3600))).didRefresh
      = false ∧
    (getYouTubeAccessToken none ⟨some "tok", 100000⟩ 0 (.ok ("t2", some 3600))).result
      = .ok "tok" ∧
    (getYouTubeAccessToken none ⟨some "tok", 50000⟩ 0 (.ok ("t2", some 3600))).didRefresh
      = true ∧
    (getYouTubeAccessToken none ⟨some "tok", 50000⟩ 0 (.ok ("t2", some 3600))).newState
      = ⟨some "t2", 0 + max 60000 ((some (3600 : Int)).getD 0 * 1000)⟩ := by
  have h1 := access_token_expiry_guard ⟨some "tok", 100000⟩ 0 (.ok ("t2", some 3600))
    "tok" rfl (by decide)
  have h2 := access_token_expiry_guard ⟨some "tok", 50000⟩ 0 (.ok ("t2", some 3600))
    "tok" rfl (by decide)
  exact ⟨h1.1.mpr (by decide), (h1.2.1 (by decide)).1,
    ((h2.2.2 (by decide)) "t2" (some 3600) rfl).1,
    ((h2.2.2 (by decide)) "t2" (some 3600) rfl).2.2⟩

theorem processChannelsAux_ok (oracle : String → Except String (List String))
    (total : Nat) (htot : total ≠ 1) :
    ∀ (inputs acc errs : List String),
      processChannelsAux oracle total inputs acc errs =
        .ok (inputs.foldl
              (fun a input =>
                match oracle input with
                | .ok ids => addUnique a ids
                | .error _ => a) acc,
             errs ++ inputs.filterMap
              (fun input =>
                match oracle input with
                | .ok _ => none
                | .error e => some (channelErrEntry input e))) := by
  intro inputs
  induction inputs with
  | nil => intro acc errs; simp [processChannelsAux]
  | cons input rest ih =>
    intro acc errs
    cases horacle : oracle input with
    | ok ids => simp [processChannelsAux, horacle, ih]
    | error e => simp [processChannelsAux, horacle, htot, ih]

/-- C9: with two or more configured channels the per-channel loop of
`runOnce` never throws: every channel is processed, the merged live set is
the union over the successful channels, and the failures are collected as
error lines; with exactly one configured channel the discovery error
propagates directly. -/
theorem channel_failure_isolation (oracle : String → Except String (List String))
    (inputs : List String) :
    (2 ≤ inputs.length →
      processChannels oracle inputs =
        .ok (successfulLiveUnion oracle inputs, failedChannelErrors oracle inputs)) ∧
    (∀ i e, inputs = [i] → oracle i = .error e →
      processChannels oracle inputs = .error e) := by
  constructor
  · intro hlen
    have htot : inputs.length ≠ 1 := by omega
    unfold processChannels successfulLiveUnion failedChannelErrors
    rw [processChannelsAux_ok oracle inputs.length htot inputs [] []]
    simp
  · intro i e hi he
    subst hi
    simp [processChannels, processChannelsAux, he]

theorem channel_failure_isolation_witness :
    processChannels (fun i => if i = "a" then .error "x" else .ok ["abc12345678"])
        ["a", "b"] =
      .ok (successfulLiveUnion
            (fun i => if i = "a" then .error "x" else .ok ["abc12345678"]) ["a", "b"],
           failedChannelErrors
            (fun i => if i = "a" then .error "x" else .ok ["abc12345678"]) ["a", "b"]) ∧
    processChannels (fun i => if i = "a" then .error "x" else .ok ["abc12345678"])
        ["a"] = .error "x" :=
  ⟨(channel_failure_isolation _ ["a", "b"]).1 (by decide),
   (channel_failure_isolation
      (fun i => if i = "a" then .error "x" else .ok ["abc12345678"]) ["a"]).2
      "a" "x" rfl rfl⟩

theorem keepFirstBy_cons (key : String → String) (x : String) (rest : List String) :
    keepFirstBy key (x :: rest) =
      x :: keepFirstBy key (rest.filter (fun y => key y != key x)) := by
  rw [keepFirstBy]

theorem uniqueStringsAux_eq_keepFirstBy (l : List String) :
    ∀ seen, uniqueStringsAux seen l =
      keepFirstBy jsToLower
        (((l.map jsTrim).filter (fun s => s != "")).filter
          (fun t => !(seen.contains (jsToLower t)))) := by
  induction l with
  | nil => intro seen; simp [uniqueStringsAux, keepFirstBy]
  | cons v rest ih =>
    intro seen
    by_cases ht : jsTrim v = ""
    · have eL : uniqueStringsAux seen (v :: rest) = uniqueStringsAux seen rest := by
        simp [uniqueStringsAux, ht]
      have eR : (((v :: rest).map jsTrim).filter (fun s => s != "")).filter
          (fun t => !(seen.contains (jsToLower t))) =
          ((rest.map jsTrim).filter (fun s => s != "")).filter
            (fun t => !(seen.contains (jsToLower t))) := by
        simp [List.map_cons, List.filter_cons, ht]
      rw [eL, eR, ih seen]
    · by_cases hseen : jsToLower (jsTrim v) ∈ seen
      · have eL : uniqueStringsAux seen (v :: rest) = uniqueStringsAux seen rest := by
          have : seen.contains (jsToLower (jsTrim v)) = true := List.elem_iff.mpr hseen
          simp [uniqueStringsAux, ht, this]
          exact fun h => absurd hseen h
        have eR : (((v :: rest).map jsTrim).filter (fun s => s != "")).filter
            (fun t => !(seen.contains (jsToLower t))) =
            ((rest.map jsTrim).filter (fun s => s != "")).filter
              (fun t => !(seen.contains (jsToLower t))) := by
          simp [List.map_cons, List.filter_cons, ht, hseen]
        rw [eL, eR, ih seen]
      · have hcf : seen.contains (jsToLower (jsTrim v)) = false := by
          rw [← Bool.not_eq_true]
          exact fun hc => hseen (List.elem_iff.mp hc)
        have eL : uniqueStringsAux seen (v :: rest) =
            jsTrim v :: uniqueStringsAux (jsToLower (jsTrim v) :: seen) rest := by
          simp [uniqueStringsAux, ht, hcf]
          exact fun h => absurd h hseen
        have eR : (((v :: rest).map jsTrim).filter (fun s => s != "")).filter
            (fun t => !(seen.contains (jsToLower t))) =
            jsTrim v :: (((rest.map jsTrim).filter (fun s => s != "")).filter
              (fun t => !(seen.contains (jsToLower t)))) := by
          simp [List.map_cons, List.filter_cons, ht, hseen]
        have hff : ((((rest.map jsTrim).filter (fun s => s != "")).filter
            (fun t => !(seen.contains (jsToLower t)))).filter
              (fun y => jsToLower y != jsToLower (jsTrim v))) =
            ((rest.map jsTrim).filter (fun s => s != "")).filter
              (fun t => !((jsToLower (jsTrim v) :: seen).contains (jsToLower t))) := by
          rw [List.filter_filter]
          apply List.filter_congr
          intro y hy
          by_cases h : jsToLower y = jsToLower (jsTrim v) <;>
            simp [List.contains_cons, h, hseen]
        rw [eL, eR, keepFirstBy_cons, hff, ih]

theorem keepFirstBy_subset (key : String → String) :
    ∀ (n : Nat) (l : List String), l.length ≤ n → ∀ y ∈ keepFirstBy key l, y ∈ l := by
  intro n
  induction n with
  | zero =>
    intro l hl y hy
    rw [List.eq_nil_of_length_eq_zero (Nat.le_zero.mp hl)] at hy ⊢
    simp [keepFirstBy] at hy
  | succ n ih =>
    intro l hl y hy
    cases l with
    | nil => simp [keepFirstBy] at hy
    | cons x rest =>
      rw [keepFirstBy_cons] at hy
      rcases List.mem_cons.mp hy with h | h
      · exact h ▸ List.mem_cons_self x rest
      · have hlen : (rest.filter (fun y => key y != key x)).length ≤ n :=
          le_trans (List.length_filter_le _ _) (by simpa using hl)
        exact List.mem_cons_of_mem _
          (List.mem_of_mem_filter (ih _ hlen y h))

theorem keepFirstBy_keys_nodup (key : String → String) :
    ∀ (n : Nat) (l : List String), l.length ≤ n →
      ((keepFirstBy key l).map key).Nodup := by
  intro n
  induction n with
  | zero =>
    intro l hl
    rw [List.eq_nil_of_length_eq_zero (Nat.le_zero.mp hl)]
    simp [keepFirstBy]
  | succ n ih =>
    intro l hl
    cases l with
    | nil => simp [keepFirstBy]
    | cons x rest =>
      rw [keepFirstBy_cons]
      have hlen : (rest.filter (fun y => key y != key x)).length ≤ n :=
        le_trans (List.length_filter_le _ _) (by simpa using hl)
      refine List.nodup_cons.mpr ⟨?_, ih _ hlen⟩
      intro hmem
      rcases List.mem_map.mp hmem with ⟨y, hy, hkey⟩
      have hyf := keepFirstBy_subset key n _ hlen y hy
      have := List.of_mem_filter hyf
      rw [hkey] at this
      simp at this

/-- C10: the channel-input list returned by `getChannelInputs` is exactly
the expanded reference list with blanks dropped and later case-insensitive
duplicates removed, each surviving reference keeping its first occurrence's
original spelling and position; consequently no two returned references
share a lower-cased form. -/
theorem channel_inputs_case_insensitive_dedup (argsChannels : List String)
    (envChannels : Option String) :
    getChannelInputs argsChannels envChannels =
      keepFirstBy jsToLower
        (((expandChannelRefs argsChannels envChannels).map jsTrim).filter
          (fun s => s != "")) ∧
    ((getChannelInputs argsChannels envChannels).map jsToLower).Nodup := by
  have hbase : getChannelInputs argsChannels envChannels =
      keepFirstBy jsToLower
        (((expandChannelRefs argsChannels envChannels).map jsTrim).filter
          (fun s => s != "")) := by
    unfold getChannelInputs uniqueStrings
    rw [uniqueStringsAux_eq_keepFirstBy _ []]
    congr 1
    apply List.filter_eq_self.mpr
    intro a _
    simp [List.contains]
  refine ⟨hbase, ?_⟩
  rw [hbase]
  exact keepFirstBy_keys_nodup jsToLower _ _ le_rfl

theorem dropWhile_eq_self_of_head (p : Char → Bool) (l : List Char)
    (h : ∀ a, l.head? = some a → p a = false) : l.dropWhile p = l := by
  cases l with
  | nil => rfl
  | cons x xs => rw [List.dropWhile_cons, h x rfl]; simp

theorem head_dropWhile_false (p : Char → Bool) :
    ∀ (l : List Char) (a : Char), (l.dropWhile p).head? = some a → p a = false := by
  intro l
  induction l with
  | nil => intro a h; simp at h
  | cons x xs ih =>
    intro a h
    rw [List.dropWhile_cons] at h
    by_cases hp : p x
    · exact ih a (by simpa [hp] using h)
    · simp [hp] at h
      rw [← h]
      simpa using hp

theorem getLast?_dropWhile (p : Char → Bool) :
    ∀ (X : List Char), X.dropWhile p ≠ [] → (X.dropWhile p).getLast? = X.getLast? := by
  intro X
  induction X with
  | nil => simp
  | cons x xs ih =>
    intro h
    rw [List.dropWhile_cons] at h ⊢
    by_cases hp : p x
    · simp only [hp, if_true] at h ⊢
      cases hxs : xs with
      | nil => rw [hxs] at h; simp [List.dropWhile] at h
      | cons b l =>
        rw [← hxs, ih h, hxs, List.getLast?_cons_cons]
    · simp [hp]

theorem ws_head_jsTrimL (l : List Char) :
    ∀ a, (jsTrimL l).head? = some a → jsWhitespace a = false := by
  intro a h
  unfold jsTrimL at h
  rw [List.head?_reverse] at h
  by_cases hM : ((l.dropWhile jsWhitespace).reverse.dropWhile jsWhitespace) = []
  · rw [hM] at h; simp at h
  · rw [getLast?_dropWhile _ _ hM, List.getLast?_reverse] at h
    exact head_dropWhile_false jsWhitespace l a h

theorem ws_getLast_jsTrimL (l : List Char) :
    ∀ a, (jsTrimL l).getLast? = some a → jsWhitespace a = false := by
  intro a h
  unfold jsTrimL at h
  rw [List.getLast?_reverse] at h
  exact head_dropWhile_false jsWhitespace _ a h

theorem jsTrimL_idem (l : List Char) : jsTrimL (jsTrimL l) = jsTrimL l := by
  conv_lhs => rw [jsTrimL]
  rw [dropWhile_eq_self_of_head _ _ (ws_head_jsTrimL l)]
  rw [dropWhile_eq_self_of_head _ _
    (fun a ha => ws_getLast_jsTrimL l a (by rwa [List.head?_reverse] at ha))]
  rw [List.reverse_reverse]

theorem jsTrim_idem (s : String) : jsTrim (jsTrim s) = jsTrim s := by
  unfold jsTrim
  exact congrArg _ (jsTrimL_idem s.data)

theorem uniqueExactStringsAux_props :
    ∀ (l seen : List String),
      (∀ s ∈ uniqueExactStringsAux seen l, jsTrim s = s ∧ s ≠ "" ∧ s ∉ seen) ∧
      (uniqueExactStringsAux seen l).Nodup := by
  intro l
  induction l with
  | nil => intro seen; simp [uniqueExactStringsAux]
  | cons v rest ih =>
    intro seen
    by_cases ht : jsTrim v = ""
    · simpa [uniqueExactStringsAux, ht] using ih seen
    · by_cases hseen : jsTrim v ∈ seen
      · have heq : uniqueExactStringsAux seen (v :: rest) =
            uniqueExactStringsAux seen rest := by
          simp [uniqueExactStringsAux, ht, List.elem_iff.mpr hseen]
          exact fun h => absurd hseen h
        rw [heq]
        exact ih seen
      · have hcf : seen.contains (jsTrim v) = false := by
          rw [← Bool.not_eq_true]
          exact fun hc => hseen (List.elem_iff.mp hc)
        have heq : uniqueExactStringsAux seen (v :: rest) =
            jsTrim v :: uniqueExactStringsAux (jsTrim v :: seen) rest := by
          simp [uniqueExactStringsAux, ht, hcf]
          exact fun h => absurd h hseen
        rw [heq]
        obtain ⟨ihp, ihn⟩ := ih (jsTrim v :: seen)
        constructor
        · intro s hs
          rcases List.mem_cons.mp hs with h | h
          · subst h
            exact ⟨jsTrim_idem v, ht, hseen⟩
          · obtain ⟨h1, h2, h3⟩ := ihp s h
            exact ⟨h1, h2, fun hmem => h3 (List.mem_cons_of_mem _ hmem)⟩
        · refine List.nodup_cons.mpr ⟨?_, ihn⟩
          intro hmem
          exact (ihp _ hmem).2.2 (List.mem_cons_self _ _)

theorem uniqueExactStringsAux_eq_self :
    ∀ (m seen : List String),
      (∀ s ∈ m, jsTrim s = s ∧ s ≠ "") → m.Nodup → (∀ s ∈ m, s ∉ seen) →
      uniqueExactStringsAux seen m = m := by
  intro m
  induction m with
  | nil => intro seen _ _ _; rfl
  | cons x rest ih =>
    intro seen hclean hnodup hdisj
    obtain ⟨hx1, hx2⟩ := hclean x (List.mem_cons_self x rest)
    have hxseen : seen.contains x = false := by
      rw [← Bool.not_eq_true]
      exact fun hc => hdisj x (List.mem_cons_self x rest) (List.elem_iff.mp hc)
    have hnotin : x ∉ seen := hdisj x (List.mem_cons_self x rest)
    have : uniqueExactStringsAux seen (x :: rest) =
        x :: uniqueExactStringsAux (x :: seen) rest := by
      simp [uniqueExactStringsAux, hx1, hx2, hxseen]
      exact fun h => absurd h hnotin
    rw [this, ih (x :: seen)
      (fun s hs => hclean s (List.mem_cons_of_mem _ hs))
      (List.nodup_cons.mp hnodup).2
      (fun s hs hmem => by
        rcases List.mem_cons.mp hmem with h | h
        · exact (List.nodup_cons.mp hnodup).1 (h ▸ hs)
        · exact hdisj s (List.mem_cons_of_mem _ hs) h)]

theorem uniqueExactStrings_idem (l : List String) :
    uniqueExactStrings (uniqueExactStrings l) = uniqueExactStrings l := by
  unfold uniqueExactStrings
  obtain ⟨hp, hn⟩ := uniqueExactStringsAux_props l []
  exact uniqueExactStringsAux_eq_self _ []
    (fun s hs => ⟨(hp s hs).1, (hp s hs).2.1⟩) hn (by simp)

theorem uniqueExactStrings_eq_self (m : List String)
    (hclean : ∀ s ∈ m, jsTrim s = s ∧ s ≠ "") (hnodup : m.Nodup) :
    uniqueExactStrings m = m :=
  uniqueExactStringsAux_eq_self m [] hclean hnodup (by simp)

theorem uniqueExactStrings_filter_eq_self (l : List String) (q : String → Bool) :
    uniqueExactStrings ((uniqueExactStrings l).filter q) =
      (uniqueExactStrings l).filter q := by
  obtain ⟨hp, hn⟩ := uniqueExactStringsAux_props l []
  exact uniqueExactStrings_eq_self _
    (fun s hs => ⟨(hp s (List.mem_of_mem_filter hs)).1,
      (hp s (List.mem_of_mem_filter hs)).2.1⟩)
    (hn.filter q)

theorem contains_eq_false_of_not_mem {l : List String} {x : String}
    (h : x ∉ l) : l.contains x = false := by
  rw [← Bool.not_eq_true]
  exact fun hc => h (List.elem_iff.mp hc)

theorem flush_merged_filter_eq (merged : List String) (insertOk : String → Bool)
    (failMsg : String → String) :
    merged.filter
      (fun id => (((merged.filter (fun v => !insertOk v)).map
        (fun v => (⟨v, failMsg v⟩ : ItemFailure))).map (fun f => f.videoId)).contains id) =
      merged.filter (fun v => !insertOk v) := by
  have hm : ((merged.filter (fun v => !insertOk v)).map
      (fun v => (⟨v, failMsg v⟩ : ItemFailure))).map (fun f => f.videoId) =
      merged.filter (fun v => !insertOk v) := by
    have h1 : List.map ((fun f : ItemFailure => f.videoId) ∘
        fun v => (⟨v, failMsg v⟩ : ItemFailure)) (merged.filter (fun v => !insertOk v)) =
        List.map id (merged.filter (fun v => !insertOk v)) := rfl
    rw [List.map_map, h1, List.map_id]
  rw [hm]
  apply List.filter_congr
  intro id hid
  by_cases h : insertOk id
  · have hnot : id ∉ merged.filter (fun v => !insertOk v) := by
      intro hmem
      have := List.of_mem_filter hmem
      simp [h] at this
    rw [contains_eq_false_of_not_mem hnot, h]
    rfl
  · have hf : insertOk id = false := by revert h; cases insertOk id <;> simp
    have hmem : id ∈ merged.filter (fun v => !insertOk v) :=
      List.mem_filter.mpr ⟨hid, by simp [hf]⟩
    have hc : (merged.filter (fun v => !insertOk v)).contains id = true :=
      List.elem_iff.mpr hmem
    rw [hc, hf]
    rfl

/-- C3 (amended): when the merged queue (on-disk entries plus new ids) is
non-empty and both the token exchange and the playlist resolution succeed,
the queue file after `flushPlaylistQueue` holds exactly the merged-queue
entries whose remote insertion failed, one per line in merge order, and is
deleted entirely when none failed.  (When the extracted on-disk queue and
the new-id list are both empty the function returns without touching the
file, so a file with no extractable ids is left in place — see the
counterexample.) -/
theorem flush_queue_holds_exact_failures (queueFile : Option String)
    (newVideoIds : List String) (ensurePlaylist : Bool) (tok pid : String)
    (insertOk : String → Bool) (failMsg : String → String)
    (hne : uniqueExactStrings (readVideoIdQueue queueFile ++ newVideoIds) ≠ []) :
    (flushPlaylistQueue queueFile newVideoIds ensurePlaylist (.ok tok) (.ok pid)
        insertOk failMsg).queueFile =
      (if ((uniqueExactStrings (readVideoIdQueue queueFile ++ newVideoIds)).filter
            (fun v => !insertOk v)).isEmpty then none
       else some (joinQueueLines
            ((uniqueExactStrings (readVideoIdQueue queueFile ++ newVideoIds)).filter
              (fun v => !insertOk v)))) ∧
    (flushPlaylistQueue queueFile newVideoIds ensurePlaylist (.ok tok) (.ok pid)
        insertOk failMsg).result.failures =
      ((uniqueExactStrings (readVideoIdQueue queueFile ++ newVideoIds)).filter
        (fun v => !insertOk v)).map (fun v => ⟨v, failMsg v⟩) ∧
    (flushPlaylistQueue queueFile newVideoIds ensurePlaylist (.ok tok) (.ok pid)
        insertOk failMsg).result.remainingCount =
      ((uniqueExactStrings (readVideoIdQueue queueFile ++ newVideoIds)).filter
        (fun v => !insertOk v)).length := by
  have hq : ¬((readVideoIdQueue queueFile).isEmpty = true ∧
      newVideoIds.isEmpty = true) := by
    rintro ⟨h1, h2⟩
    rw [List.isEmpty_iff] at h1 h2
    rw [h1, h2] at hne
    exact hne rfl
  have hcond : ((readVideoIdQueue queueFile).isEmpty && newVideoIds.isEmpty) = false := by
    cases hq1 : (readVideoIdQueue queueFile).isEmpty with
    | false => simp
    | true =>
      cases hq2 : newVideoIds.isEmpty with
      | false => simp
      | true => exact absurd ⟨hq1, hq2⟩ hq
  have hmergedne : (uniqueExactStrings
      (readVideoIdQueue queueFile ++ newVideoIds)).isEmpty = false := by
    cases h : (uniqueExactStrings
        (readVideoIdQueue queueFile ++ newVideoIds)).isEmpty with
    | false => rfl
    | true => exact absurd (List.isEmpty_iff.mp h) hne
  have hidem := uniqueExactStrings_idem (readVideoIdQueue queueFile ++ newVideoIds)
  have hfilt := flush_merged_filter_eq
    (uniqueExactStrings (readVideoIdQueue queueFile ++ newVideoIds)) insertOk failMsg
  have hwrite := uniqueExactStrings_filter_eq_self
    (readVideoIdQueue queueFile ++ newVideoIds) (fun v => !insertOk v)
  simp only [flushPlaylistQueue, hcond, Bool.false_eq_true, if_false, hmergedne,
    addVideoIdsToPlaylist, hidem, hfilt, writeVideoIdQueue, hwrite]
  exact ⟨trivial, trivial, trivial⟩

theorem flush_queue_counterexample :
    (flushPlaylistQueue (some "hello\n") [] false (.ok "tok") (.ok "pid")
        (fun _ => true) (fun _ => "msg")).queueFile = some "hello\n" ∧
    (flushPlaylistQueue (some "hello\n") [] false (.ok "tok") (.ok "pid")
        (fun _ => true) (fun _ => "msg")).result.failures = [] ∧
    (flushPlaylistQueue (some "hello\n") [] false (.ok "tok") (.ok "pid")
        (fun _ => true) (fun _ => "msg")).result.remainingCount = 0 := by
  refine ⟨?_, ?_, ?_⟩ <;> rfl

theorem flush_queue_holds_exact_failures_witness :
    uniqueExactStrings
        (readVideoIdQueue (some "AAAAAAAAAAA\nBBBBBBBBBBB\n") ++ ([] : List String)) ≠ [] ∧
    (flushPlaylistQueue (some "AAAAAAAAAAA\nBBBBBBBBBBB\n") [] false (.ok "tok")
        (.ok "pid") (fun v => v == "BBBBBBBBBBB") (fun _ => "msg")).queueFile =
      (if ((uniqueExactStrings
            (readVideoIdQueue (some "AAAAAAAAAAA\nBBBBBBBBBBB\n") ++ ([] : List String))).filter
            (fun v => !(v == "BBBBBBBBBBB"))).isEmpty then none
       else some (joinQueueLines
            ((uniqueExactStrings
              (readVideoIdQueue (some "AAAAAAAAAAA\nBBBBBBBBBBB\n") ++ ([] : List String))).filter
              (fun v => !(v == "BBBBBBBBBBB"))))) :=
  ⟨by decide,
   (flush_queue_holds_exact_failures (some "AAAAAAAAAAA\nBBBBBBBBBBB\n") [] false
      "tok" "pid" (fun v => v == "BBBBBBBBBBB") (fun _ => "msg") (by decide)).1⟩

/-- C4: in full-backfill mode, with the token exchange, playlist
resolution, and remote-membership fetch all succeeding, the ids handed to
the insertion loop are exactly the desired set (retry queue ∪ ledger ids)
minus the fetched remote membership; in particular no id already present
in the fetched membership is ever passed to insertion. -/
theorem backfill_never_duplicates (queueFile ledger : Option String)
    (tok pid : String) (remote : List String)
    (insertOk : String → Bool) (failMsg : String → String) :
    (syncOutputFileToPlaylist queueFile ledger (.ok tok) (.ok pid) (.ok remote)
        insertOk failMsg).attempted =
      (uniqueExactStrings
        (readVideoIdQueue queueFile ++ readExistingVideoIds ledger)).filter
        (fun id => !remote.contains id) ∧
    ∀ id ∈ remote,
      id ∉ (syncOutputFileToPlaylist queueFile ledger (.ok tok) (.ok pid) (.ok remote)
        insertOk failMsg).attempted := by
  have key : (syncOutputFileToPlaylist queueFile ledger (.ok tok) (.ok pid) (.ok remote)
      insertOk failMsg).attempted =
      (uniqueExactStrings
        (readVideoIdQueue queueFile ++ readExistingVideoIds ledger)).filter
        (fun id => !remote.contains id) := by
    unfold syncOutputFileToPlaylist
    cases hdes : (uniqueExactStrings
        (readVideoIdQueue queueFile ++ readExistingVideoIds ledger)).isEmpty with
    | true =>
      rw [List.isEmpty_iff] at hdes
      simp [hdes]
    | false =>
      have hpend := uniqueExactStrings_filter_eq_self
        (readVideoIdQueue queueFile ++ readExistingVideoIds ledger)
        (fun id => !remote.contains id)
      cases hp : ((uniqueExactStrings
          (readVideoIdQueue queueFile ++ readExistingVideoIds ledger)).filter
          (fun id => !remote.contains id)).isEmpty with
      | true =>
        simp only [hdes, Bool.false_eq_true, if_false, hp, if_true]
        exact (List.isEmpty_iff.mp hp).symm
      | false =>
        simp only [hdes, Bool.false_eq_true, if_false, hp, if_false]
        exact hpend
  refine ⟨key, fun id hid hmem => ?_⟩
  rw [key] at hmem
  have := List.of_mem_filter hmem
  have hc : remote.contains id = true := List.elem_iff.mpr hid
  rw [hc] at this
  simp at this

theorem lastTokenL_all_nonws (l : List Char)
    (h : ∀ c ∈ l, jsWhitespace c = false) : lastTokenL l = l := by
  unfold lastTokenL
  rw [List.takeWhile_eq_self_iff.mpr
    (fun c hc => by simp [h c (List.mem_reverse.mp hc)]), List.reverse_reverse]

theorem valid_clean (v : String) (hv : isValidVideoId v) : jsTrim v = v ∧ v ≠ "" := by
  obtain ⟨hlen, hval⟩ := hv
  constructor
  · unfold jsTrim
    rw [jsTrimL_eq_self _ (fun c hc => valid_char_not_ws c (hval c hc))]
  · intro h
    subst h
    exact absurd hlen (by decide)

theorem valid_isEmpty_false (v : String) (hv : isValidVideoId v) :
    v.data.isEmpty = false := by
  obtain ⟨hlen, -⟩ := hv
  cases hd : v.data with
  | nil => rw [hd] at hlen; exact absurd hlen (by decide)
  | cons a l => rfl

theorem truthyId_valid (v : String) (hv : isValidVideoId v) :
    truthyId v.data = some v.data := by
  obtain ⟨hlen, hval⟩ := hv
  have hnws : ∀ c ∈ v.data, jsWhitespace c = false :=
    fun c hc => valid_char_not_ws c (hval c hc)
  have htrim : jsTrimL v.data = v.data := jsTrimL_eq_self _ hnws
  have hie : v.data.isEmpty = false := valid_isEmpty_false v ⟨hlen, hval⟩
  have hlt : lastTokenL v.data = v.data := lastTokenL_all_nonws _ hnws
  unfold truthyId
  simp only [htrim, hie, Bool.false_eq_true, if_false, hlt,
    extractCore_valid v.data hlen hval]

theorem valid_no_nl (v : String) (hv : isValidVideoId v) :
    ∀ c ∈ v.data, (fun c => decide (c = '\n')) c = false := by
  intro c hc
  simp [valid_char_ne c '\n' (hv.2 c hc) (by decide)]

theorem splitPred_joinQueueLines :
    ∀ (m : List String),
      (∀ v ∈ m, ∀ c ∈ v.data, (fun c => decide (c = '\n')) c = false) → m ≠ [] →
      splitPred (fun c => c = '\n') (joinQueueLines m).data =
        m.map (fun v => v.data) ++ [[]] := by
  intro m
  induction m with
  | nil => intro _ hne; exact absurd rfl hne
  | cons v rest ih =>
    intro hm _
    cases rest with
    | nil =>
      have e : (joinQueueLines [v]).data = v.data ++ '\n' :: [] := rfl
      rw [e, splitPred_append_sep _ _ _ '\n' (by decide),
        splitPred_no_sep _ _ (hm v (List.mem_cons_self v []))]
      rfl
    | cons w rest' =>
      have e : (joinQueueLines (v :: w :: rest')).data =
          v.data ++ '\n' :: (joinQueueLines (w :: rest')).data := by
        show ((v ++ "\n") ++ joinQueueLines (w :: rest')).data = _
        rw [String.data_append, String.data_append]
        simp [List.append_assoc]
      rw [e, splitPred_append_sep _ _ _ '\n' (by decide),
        splitPred_no_sep _ _ (hm v (List.mem_cons_self v _)),
        ih (fun x hx => hm x (List.mem_cons_of_mem _ hx)) (by simp)]
      rfl

theorem filterMap_eq_self_of_some {α : Type} (f : α → Option α) :
    ∀ (l : List α), (∀ x ∈ l, f x = some x) → l.filterMap f = l := by
  intro l
  induction l with
  | nil => intro _; rfl
  | cons x xs ih =>
    intro h
    rw [List.filterMap_cons, h x (List.mem_cons_self x xs),
      ih (fun y hy => h y (List.mem_cons_of_mem _ hy))]

theorem readVideoIdQueue_join (m : List String)
    (hm : ∀ v ∈ m, isValidVideoId v) (hnodup : m.Nodup) (hne : m ≠ []) :
    readVideoIdQueue (some (joinQueueLines m)) = m := by
  simp only [readVideoIdQueue]
  rw [splitPred_joinQueueLines m (fun v hv => valid_no_nl v (hm v hv)) hne,
    List.filterMap_append]
  have h1 : (m.map (fun v => v.data)).filterMap
      (fun line => (truthyId line).map (fun l => (⟨l⟩ : String))) = m := by
    rw [List.filterMap_map]
    exact filterMap_eq_self_of_some _ m (fun v hv => by
      simp [Function.comp, truthyId_valid v (hm v hv)])
  have h2 : ([([] : List Char)]).filterMap
      (fun line => (truthyId line).map (fun l => (⟨l⟩ : String))) = [] := rfl
  rw [h1, h2, List.append_nil]
  exact uniqueExactStrings_eq_self m (fun s hs => valid_clean s (hm s hs)) hnodup

theorem mem_uniqueExactStringsAux (x : String) (hx1 : jsTrim x = x) (hx2 : x ≠ "") :
    ∀ (l seen : List String), x ∈ l → x ∈ uniqueExactStringsAux seen l ∨ x ∈ seen := by
  intro l
  induction l with
  | nil => intro seen h; simp at h
  | cons v rest ih =>
    intro seen hmem
    by_cases ht : jsTrim v = ""
    · have heq : uniqueExactStringsAux seen (v :: rest) = uniqueExactStringsAux seen rest := by
        simp [uniqueExactStringsAux, ht]
      rcases List.mem_cons.mp hmem with h | h
      · exfalso
        subst h
        rw [hx1] at ht
        exact hx2 ht
      · rw [heq]; exact ih seen h
    · by_cases hseen : jsTrim v ∈ seen
      · have heq : uniqueExactStringsAux seen (v :: rest) =
            uniqueExactStringsAux seen rest := by
          simp [uniqueExactStringsAux, ht, List.elem_iff.mpr hseen]
          exact fun h => absurd hseen h
        rw [heq]
        rcases List.mem_cons.mp hmem with h | h
        · subst h; rw [hx1] at hseen; exact Or.inr hseen
        · exact ih seen h
      · have hcf : seen.contains (jsTrim v) = false := by
          rw [← Bool.not_eq_true]
          exact fun hc => hseen (List.elem_iff.mp hc)
        have heq : uniqueExactStringsAux seen (v :: rest) =
            jsTrim v :: uniqueExactStringsAux (jsTrim v :: seen) rest := by
          simp [uniqueExactStringsAux, ht, hcf]
          exact fun h => absurd h hseen
        rw [heq]
        rcases List.mem_cons.mp hmem with h | h
        · subst h
          rw [hx1]
          exact Or.inl (List.mem_cons_self _ _)
        · rcases ih (jsTrim v :: seen) h with h' | h'
          · exact Or.inl (List.mem_cons_of_mem _ h')
          · rcases List.mem_cons.mp h' with h'' | h''
            · rw [h'']
              exact Or.inl (List.mem_cons_self _ _)
            · exact Or.inr h''

theorem mem_uniqueExactStrings (x : String) (l : List String)
    (hx1 : jsTrim x = x) (hx2 : x ≠ "") (hmem : x ∈ l) :
    x ∈ uniqueExactStrings l := by
  rcases mem_uniqueExactStringsAux x hx1 hx2 l [] hmem with h | h
  · exact h
  · simp at h

theorem uniqueExactStringsAux_src :
    ∀ (l seen : List String), ∀ s ∈ uniqueExactStringsAux seen l, ∃ x ∈ l, s = jsTrim x := by
  intro l
  induction l with
  | nil => intro seen s hs; simp [uniqueExactStringsAux] at hs
  | cons v rest ih =>
    intro seen s hs
    by_cases ht : jsTrim v = ""
    · rw [show uniqueExactStringsAux seen (v :: rest) = uniqueExactStringsAux seen rest
        from by simp [uniqueExactStringsAux, ht]] at hs
      obtain ⟨x, hx, he⟩ := ih seen s hs
      exact ⟨x, List.mem_cons_of_mem _ hx, he⟩
    · by_cases hseen : seen.contains (jsTrim v) = true
      · rw [show uniqueExactStringsAux seen (v :: rest) = uniqueExactStringsAux seen rest
          from by
            simp [uniqueExactStringsAux, ht, hseen]
            exact fun h => absurd (List.elem_iff.mp hseen) h] at hs
        obtain ⟨x, hx, he⟩ := ih seen s hs
        exact ⟨x, List.mem_cons_of_mem _ hx, he⟩
      · have hcf : seen.contains (jsTrim v) = false := by
          revert hseen; cases (seen.contains (jsTrim v)) <;> simp
        rw [show uniqueExactStringsAux seen (v :: rest) =
            jsTrim v :: uniqueExactStringsAux (jsTrim v :: seen) rest
          from by
            simp [uniqueExactStringsAux, ht, hcf]
            exact fun h => absurd (List.elem_iff.mpr h) hseen] at hs
        rcases List.mem_cons.mp hs with h | h
        · exact ⟨v, List.mem_cons_self _ _, h⟩
        · obtain ⟨x, hx, he⟩ := ih (jsTrim v :: seen) s h
          exact ⟨x, List.mem_cons_of_mem _ hx, he⟩

theorem jsTrimL_of_ends (l : List Char)
    (hhead : ∀ a, l.head? = some a → jsWhitespace a = false)
    (hlast : ∀ a, l.getLast? = some a → jsWhitespace a = false) : jsTrimL l = l := by
  unfold jsTrimL
  rw [dropWhile_eq_self_of_head _ _ hhead,
    dropWhile_eq_self_of_head _ _
      (fun a ha => hlast a (by rwa [List.head?_reverse] at ha)),
    List.reverse_reverse]

theorem lastTokenL_sep (x u : List Char)
    (hu : ∀ c ∈ u, jsWhitespace c = false) :
    lastTokenL (x ++ '\t' :: u) = u := by
  unfold lastTokenL
  have e : (x ++ '\t' :: u).reverse = u.reverse ++ '\t' :: x.reverse := by
    rw [List.reverse_append, List.reverse_cons, List.append_assoc]
    rfl
  rw [e, takeWhile_stop _ _ _ _
    (List.all_eq_true.mpr (fun c hc => by simp [hu c (List.mem_reverse.mp hc)]))
    (by decide), List.reverse_reverse]

theorem jsTrimL_sep (x u : List Char)
    (hx : ∀ c ∈ x, jsWhitespace c = false)
    (hu : ∀ c ∈ u, jsWhitespace c = false) (hune : u ≠ []) :
    jsTrimL (x ++ '\t' :: u) = (if x = [] then u else x ++ '\t' :: u) := by
  cases hxe : x with
  | nil =>
    subst hxe
    simp only [List.nil_append, if_true]
    unfold jsTrimL
    have h1 : ('\t' :: u).dropWhile jsWhitespace = u := by
      rw [List.dropWhile_cons]
      simp only [show jsWhitespace '\t' = true from by decide, if_true]
      refine dropWhile_eq_self_of_head _ _ (fun a ha => hu a ?_)
      cases u with
      | nil => simp at ha
      | cons b l =>
        simp only [List.head?_cons, Option.some_inj] at ha
        rw [← ha]
        exact List.mem_cons_self b l
    rw [h1, dropWhile_eq_self_of_head _ _
      (fun a ha => hu a (List.mem_of_mem_getLast? (by rwa [List.head?_reverse] at ha))),
      List.reverse_reverse]
  | cons c xs =>
    subst hxe
    simp only [if_neg (List.cons_ne_nil c xs)]
    apply jsTrimL_of_ends
    · intro a ha
      simp only [List.cons_append, List.head?_cons, Option.some_inj] at ha
      rw [← ha]
      exact hx c (List.mem_cons_self c xs)
    · intro a ha
      rw [List.getLast?_append_of_ne_nil _ (List.cons_ne_nil '\t' u)] at ha
      have hmem : a ∈ '\t' :: u := List.mem_of_mem_getLast? ha
      rcases List.mem_cons.mp hmem with h | h
      · subst h
        exfalso
        have hlast : ('\t' :: u).getLast? = u.getLast? := by
          cases u with
          | nil => exact absurd rfl hune
          | cons b l => exact List.getLast?_cons_cons ..
        rw [hlast] at ha
        have h2 := hu _ (List.mem_of_mem_getLast? ha)
        exact absurd h2 (by decide)
      · exact hu a h

theorem watchUrl_data (v : String) :
    (watchUrl v).data = "https://www.youtube.com/watch?v=".data ++ v.data := rfl

theorem watchUrl_nonws (v : String) (hv : isValidVideoId v) :
    ∀ c ∈ (watchUrl v).data, jsWhitespace c = false := by
  rw [watchUrl_data]
  exact concat_nonws _ _ (by decide) hv.2

theorem watchUrl_data_ne_nil (v : String) : (watchUrl v).data ≠ [] := by
  rw [watchUrl_data]
  simp

theorem truthyId_watchUrl (v : String) (hv : isValidVideoId v) :
    truthyId (watchUrl v).data = some v.data := by
  have hnws := watchUrl_nonws v hv
  have htrim : jsTrimL (watchUrl v).data = (watchUrl v).data := jsTrimL_eq_self _ hnws
  have hie : (watchUrl v).data.isEmpty = false := rfl
  have hlt : lastTokenL (watchUrl v).data = (watchUrl v).data :=
    lastTokenL_all_nonws _ hnws
  have hex : extractCore (watchUrl v).data = some v.data := by
    rw [watchUrl_data]
    exact extractCore_watchUrl v.data hv.1 hv.2
  have hvie : v.data.isEmpty = false := valid_isEmpty_false v hv
  unfold truthyId
  simp only [htrim, hie, Bool.false_eq_true, if_false, hlt, hex, hvie]

theorem truthyId_sep_url (ts : String) (v : String) (hv : isValidVideoId v)
    (hts : ∀ c ∈ ts.data, jsWhitespace c = false) :
    truthyId (ts.data ++ '\t' :: (watchUrl v).data) = some v.data := by
  have hnws := watchUrl_nonws v hv
  have htrim := jsTrimL_sep ts.data (watchUrl v).data hts hnws (watchUrl_data_ne_nil v)
  have hex : extractCore (watchUrl v).data = some v.data := by
    rw [watchUrl_data]
    exact extractCore_watchUrl v.data hv.1 hv.2
  have hvie : v.data.isEmpty = false := valid_isEmpty_false v hv
  unfold truthyId
  rw [htrim]
  cases hts' : ts.data with
  | nil =>
    simp only [if_true]
    have hie : (watchUrl v).data.isEmpty = false := rfl
    have hlt : lastTokenL (watchUrl v).data = (watchUrl v).data :=
      lastTokenL_all_nonws _ hnws
    simp only [hie, Bool.false_eq_true, if_false, hlt, hex, hvie]
  | cons c xs =>
    simp only [if_neg (List.cons_ne_nil c xs), List.cons_append]
    have hie : (c :: (xs ++ '\t' :: (watchUrl v).data)).isEmpty = false := rfl
    have hlt : lastTokenL (c :: (xs ++ '\t' :: (watchUrl v).data)) = (watchUrl v).data := by
      have : c :: (xs ++ '\t' :: (watchUrl v).data) =
          (c :: xs) ++ '\t' :: (watchUrl v).data := rfl
      rw [this]
      exact lastTokenL_sep _ _ hnws
    simp only [hie, Bool.false_eq_true, if_false, hlt, hex, hvie]

theorem appendLoop_cons_skip (wt : Bool) (ts : String) (existing : List String)
    (x : String) (rest : List String) (h : existing.contains x = true) :
    appendLoop wt ts existing (x :: rest) = appendLoop wt ts existing rest := by
  simp [appendLoop, h]
  exact fun hnot => (hnot (List.elem_iff.mp h)).elim

theorem appendLoop_cons_add (wt : Bool) (ts : String) (existing : List String)
    (x : String) (rest : List String) (h : existing.contains x = false) :
    appendLoop wt ts existing (x :: rest) =
      (ledgerLine wt ts (watchUrl x) ++ (appendLoop wt ts (existing ++ [x]) rest).1,
       x :: (appendLoop wt ts (existing ++ [x]) rest).2.1,
       watchUrl x :: (appendLoop wt ts (existing ++ [x]) rest).2.2) := by
  simp [appendLoop, h]
  exact fun hmem =>
    absurd ((List.elem_iff.mpr hmem).symm.trans h) (by decide)

theorem appendLoop_saved_subset (wt : Bool) (ts : String) :
    ∀ (ids existing : List String), ∀ v ∈ (appendLoop wt ts existing ids).2.1, v ∈ ids := by
  intro ids
  induction ids with
  | nil => intro existing v hv; simp [appendLoop] at hv
  | cons x rest ih =>
    intro existing v hv
    cases h : existing.contains x with
    | true =>
      rw [appendLoop_cons_skip wt ts existing x rest h] at hv
      exact List.mem_cons_of_mem _ (ih existing v hv)
    | false =>
      rw [appendLoop_cons_add wt ts existing x rest h] at hv
      rcases List.mem_cons.mp hv with h' | h'
      · exact h' ▸ List.mem_cons_self x rest
      · exact List.mem_cons_of_mem _ (ih _ v h')

theorem appendLoop_covers (wt : Bool) (ts : String) :
    ∀ (ids existing : List String), ∀ v ∈ ids,
      v ∈ existing ∨ v ∈ (appendLoop wt ts existing ids).2.1 := by
  intro ids
  induction ids with
  | nil => intro existing v hv; simp at hv
  | cons x rest ih =>
    intro existing v hv
    cases h : existing.contains x with
    | true =>
      rw [appendLoop_cons_skip wt ts existing x rest h]
      rcases List.mem_cons.mp hv with h' | h'
      · subst h'; exact Or.inl (List.elem_iff.mp h)
      · exact ih existing v h'
    | false =>
      rw [appendLoop_cons_add wt ts existing x rest h]
      rcases List.mem_cons.mp hv with h' | h'
      · subst h'; exact Or.inr (List.mem_cons_self _ _)
      · rcases ih (existing ++ [x]) v h' with h'' | h''
        · rcases List.mem_append.mp h'' with h3 | h3
          · exact Or.inl h3
          · simp only [List.mem_singleton] at h3
            subst h3
            exact Or.inr (List.mem_cons_self _ _)
        · exact Or.inr (List.mem_cons_of_mem _ h'')

theorem ledgerLine_data_false (ts url : String) :
    (ledgerLine false ts url).data = url.data ++ '\n' :: [] := rfl

theorem ledgerLine_data_true (ts url : String) :
    (ledgerLine true ts url).data = (ts.data ++ '\t' :: url.data) ++ '\n' :: [] := by
  show ((ts ++ "\t" ++ url) ++ "\n").data = _
  rw [String.data_append, String.data_append, String.data_append]
  simp [List.append_assoc]

theorem splitPred_ledgerLine_buffer (wt : Bool) (ts buf : String) (url : String) :
    splitPred (fun c => c = '\n') (ledgerLine wt ts url ++ buf).data =
      splitPred (fun c => c = '\n')
        (if wt then ts.data ++ '\t' :: url.data else url.data) ++
      splitPred (fun c => c = '\n') buf.data := by
  cases wt with
  | false =>
    have e : (ledgerLine false ts url ++ buf).data = url.data ++ '\n' :: buf.data := by
      rw [String.data_append, ledgerLine_data_false]
      simp [List.append_assoc]
    rw [e, splitPred_append_sep _ _ _ '\n' (by decide)]
    rfl
  | true =>
    have e : (ledgerLine true ts url ++ buf).data =
        (ts.data ++ '\t' :: url.data) ++ '\n' :: buf.data := by
      rw [String.data_append, ledgerLine_data_true]
      simp [List.append_assoc]
    rw [e, splitPred_append_sep _ _ _ '\n' (by decide)]
    rfl

theorem appendLoop_saved_line (wt : Bool) (ts : String)
    (hts : ∀ c ∈ ts.data, jsWhitespace c = false) :
    ∀ (ids existing : List String), (∀ v ∈ ids, isValidVideoId v) →
      ∀ v ∈ (appendLoop wt ts existing ids).2.1,
        ∃ line ∈ splitPred (fun c => c = '\n') (appendLoop wt ts existing ids).1.data,
          truthyId line = some v.data := by
  intro ids
  induction ids with
  | nil => intro existing _ v hv; simp [appendLoop] at hv
  | cons x rest ih =>
    intro existing hval v hv
    cases h : existing.contains x with
    | true =>
      rw [appendLoop_cons_skip wt ts existing x rest h] at hv ⊢
      exact ih existing (fun w hw => hval w (List.mem_cons_of_mem _ hw)) v hv
    | false =>
      rw [appendLoop_cons_add wt ts existing x rest h] at hv ⊢
      have hxvalid : isValidVideoId x := hval x (List.mem_cons_self x rest)
      have hbody : truthyId (if wt then ts.data ++ '\t' :: (watchUrl x).data
          else (watchUrl x).data) = some x.data := by
        cases wt with
        | false => exact truthyId_watchUrl x hxvalid
        | true => exact truthyId_sep_url ts x hxvalid hts
      have hsplitbody : splitPred (fun c => c = '\n')
          (if wt then ts.data ++ '\t' :: (watchUrl x).data else (watchUrl x).data) =
          [if wt then ts.data ++ '\t' :: (watchUrl x).data else (watchUrl x).data] := by
        apply splitPred_no_sep
        intro c hc
        apply decide_eq_false
        intro he
        subst he
        cases wt with
        | false =>
          simp only [Bool.false_eq_true, if_false] at hc
          exact absurd (watchUrl_nonws x hxvalid _ hc) (by decide)
        | true =>
          simp only [if_true] at hc
          rcases List.mem_append.mp hc with h1 | h1
          · exact absurd (hts _ h1) (by decide)
          · rcases List.mem_cons.mp h1 with h2 | h2
            · exact absurd h2 (by decide)
            · exact absurd (watchUrl_nonws x hxvalid _ h2) (by decide)
      rcases List.mem_cons.mp hv with h' | h'
      · subst h'
        refine ⟨(if wt then ts.data ++ '\t' :: (watchUrl v).data else (watchUrl v).data),
          ?_, hbody⟩
        rw [show (ledgerLine wt ts (watchUrl v) ++
            (appendLoop wt ts (existing ++ [v]) rest).1, v ::
            (appendLoop wt ts (existing ++ [v]) rest).2.1,
            watchUrl v :: (appendLoop wt ts (existing ++ [v]) rest).2.2).1 =
            ledgerLine wt ts (watchUrl v) ++
              (appendLoop wt ts (existing ++ [v]) rest).1 from rfl,
          splitPred_ledgerLine_buffer, hsplitbody]
        exact List.mem_append.mpr (Or.inl (List.mem_cons_self _ _))
      · obtain ⟨line, hline, hid⟩ :=
          ih (existing ++ [x]) (fun w hw => hval w (List.mem_cons_of_mem _ hw)) v h'
        refine ⟨line, ?_, hid⟩
        rw [show (ledgerLine wt ts (watchUrl x) ++
            (appendLoop wt ts (existing ++ [x]) rest).1, x ::
            (appendLoop wt ts (existing ++ [x]) rest).2.1,
            watchUrl x :: (appendLoop wt ts (existing ++ [x]) rest).2.2).1 =
            ledgerLine wt ts (watchUrl x) ++
              (appendLoop wt ts (existing ++ [x]) rest).1 from rfl,
          splitPred_ledgerLine_buffer]
        exact List.mem_append.mpr (Or.inr hline)

theorem appendNewLiveLinks_saved_subset (content : Option String) (ids : List String)
    (wt : Bool) (ts : String) :
    ∀ v ∈ (appendNewLiveLinks content ids wt ts).savedVideoIds, v ∈ ids := by
  intro v hv
  unfold appendNewLiveLinks at hv
  cases hie : ids.isEmpty with
  | true => simp [hie] at hv
  | false =>
    simp only [hie, Bool.false_eq_true, if_false] at hv
    exact appendLoop_saved_subset wt ts ids (readExistingVideoIds content) v hv

theorem flush_error_keeps_merged (queueFile : Option String) (newIds : List String)
    (tokenRes playlistRes : Except String String)
    (insertOk : String → Bool) (failMsg : String → String)
    (herr : (∃ e, tokenRes = .error e) ∨ (∃ e, playlistRes = .error e)) :
    (flushPlaylistQueue queueFile newIds false tokenRes playlistRes
        insertOk failMsg).queueFile =
      (if (readVideoIdQueue queueFile).isEmpty && newIds.isEmpty then queueFile
       else writeVideoIdQueue
        (uniqueExactStrings (readVideoIdQueue queueFile ++ newIds))) := by
  unfold flushPlaylistQueue
  cases hc : ((readVideoIdQueue queueFile).isEmpty && newIds.isEmpty) with
  | true => simp [hc]
  | false =>
    simp only [hc, Bool.false_eq_true, if_false, if_true]
    cases hm : (uniqueExactStrings (readVideoIdQueue queueFile ++ newIds)).isEmpty with
    | true => simp [hm]
    | false =>
      simp only [hm, Bool.false_eq_true, if_false]
      rcases herr with ⟨e, he⟩ | ⟨e, he⟩
      · subst he; rfl
      · subst he
        cases tokenRes with
        | error e' => rfl
        | ok t => rfl

/-- C5: with playlist saving enabled on the incremental path, a failure of
token acquisition or of playlist resolution neither prevents nor undoes
the ledger append (the resulting ledger equals the pure append result),
and the merged retry queue — previous queue entries plus the newly saved
ids — is exactly what the queue file then holds for the next run (it was
written to disk before any network call was attempted). -/
theorem playlist_failure_degrades_gracefully (ledger queueFile : Option String)
    (liveVideoIds : List String) (wt : Bool) (ts : String)
    (tokenRes playlistRes : Except String String)
    (insertOk : String → Bool) (failMsg : String → String)
    (hvalid : ∀ v ∈ liveVideoIds, isValidVideoId v)
    (hqvalid : ∀ v ∈ readVideoIdQueue queueFile, isValidVideoId v)
    (herr : (∃ e, tokenRes = .error e) ∨ (∃ e, playlistRes = .error e)) :
    (runSaveAndFlush ledger queueFile liveVideoIds wt ts tokenRes playlistRes
        insertOk failMsg).1 =
      (appendNewLiveLinks ledger liveVideoIds wt ts).newContent ∧
    readVideoIdQueue
        (runSaveAndFlush ledger queueFile liveVideoIds wt ts tokenRes playlistRes
          insertOk failMsg).2.queueFile =
      uniqueExactStrings (readVideoIdQueue queueFile ++
        (appendNewLiveLinks ledger liveVideoIds wt ts).savedVideoIds) := by
  refine ⟨rfl, ?_⟩
  have hq2 : (runSaveAndFlush ledger queueFile liveVideoIds wt ts tokenRes playlistRes
      insertOk failMsg).2 =
      flushPlaylistQueue queueFile
        (appendNewLiveLinks ledger liveVideoIds wt ts).savedVideoIds false
        tokenRes playlistRes insertOk failMsg := rfl
  rw [hq2, flush_error_keeps_merged _ _ _ _ _ _ herr]
  have hsval : ∀ v ∈ (appendNewLiveLinks ledger liveVideoIds wt ts).savedVideoIds,
      isValidVideoId v :=
    fun v hv => hvalid v (appendNewLiveLinks_saved_subset ledger liveVideoIds wt ts v hv)
  cases hc : ((readVideoIdQueue queueFile).isEmpty &&
      (appendNewLiveLinks ledger liveVideoIds wt ts).savedVideoIds.isEmpty) with
  | true =>
    simp only [if_true]
    have h1 : (readVideoIdQueue queueFile).isEmpty = true := by
      revert hc
      cases (readVideoIdQueue queueFile).isEmpty <;> simp
    have h2 : (appendNewLiveLinks ledger liveVideoIds wt ts).savedVideoIds.isEmpty
        = true := by
      revert hc
      cases hx : (appendNewLiveLinks ledger liveVideoIds wt ts).savedVideoIds.isEmpty <;>
        simp [Bool.and_false]
    rw [List.isEmpty_iff] at h1 h2
    rw [h1, h2]
    rfl
  | false =>
    simp only [Bool.false_eq_true, if_false]
    have hmval : ∀ s ∈ uniqueExactStrings (readVideoIdQueue queueFile ++
        (appendNewLiveLinks ledger liveVideoIds wt ts).savedVideoIds),
        isValidVideoId s := by
      intro s hs
      obtain ⟨x, hx, he⟩ := uniqueExactStringsAux_src _ [] s hs
      have hxv : isValidVideoId x := by
        rcases List.mem_append.mp hx with h | h
        · exact hqvalid x h
        · exact hsval x h
      rw [he, (valid_clean x hxv).1]
      exact hxv
    have hnodup := (uniqueExactStringsAux_props (readVideoIdQueue queueFile ++
      (appendNewLiveLinks ledger liveVideoIds wt ts).savedVideoIds) []).2
    simp only [writeVideoIdQueue]
    rw [uniqueExactStrings_idem]
    cases hm : (uniqueExactStrings (readVideoIdQueue queueFile ++
        (appendNewLiveLinks ledger liveVideoIds wt ts).savedVideoIds)).isEmpty with
    | true =>
      simp only [if_true]
      rw [List.isEmpty_iff.mp hm]
      rfl
    | false =>
      simp only [Bool.false_eq_true, if_false]
      apply readVideoIdQueue_join _ hmval hnodup
      intro hnil
      rw [hnil] at hm
      simp at hm

theorem playlist_failure_degrades_gracefully_witness :
    (runSaveAndFlush none none ["abc12345678"] false "" (.error "boom") (.ok "pid")
        (fun _ => true) (fun _ => "m")).1 =
      (appendNewLiveLinks none ["abc12345678"] false "").newContent ∧
    readVideoIdQueue (runSaveAndFlush none none ["abc12345678"] false "" (.error "boom")
        (.ok "pid") (fun _ => true) (fun _ => "m")).2.queueFile =
      uniqueExactStrings (readVideoIdQueue none ++
        (appendNewLiveLinks none ["abc12345678"] false "").savedVideoIds) :=
  playlist_failure_degrades_gracefully none none ["abc12345678"] false ""
    (.error "boom") (.ok "pid") (fun _ => true) (fun _ => "m")
    (by intro v hv; rw [List.mem_singleton.mp hv]; decide)
    (by intro v hv; exact absurd hv (List.not_mem_nil v))
    (Or.inl ⟨"boom", rfl⟩)

theorem mem_addIfNew (acc : List String) (x v : String) :
    v ∈ addIfNew acc x ↔ v ∈ acc ∨ v = x := by
  unfold addIfNew
  cases h : acc.contains x with
  | true =>
    simp only [if_true]
    constructor
    · exact Or.inl
    · rintro (hv | hv)
      · exact hv
      · exact hv ▸ List.elem_iff.mp h
  | false =>
    simp only [Bool.false_eq_true, if_false, List.mem_append, List.mem_singleton]

theorem mem_addUnique :
    ∀ (ids acc : List String) (v : String),
      v ∈ addUnique acc ids ↔ v ∈ acc ∨ v ∈ ids := by
  intro ids
  induction ids with
  | nil => intro acc v; simp [addUnique]
  | cons x rest ih =>
    intro acc v
    show v ∈ addUnique (addIfNew acc x) rest ↔ _
    rw [ih, mem_addIfNew]
    constructor
    · rintro ((h | h) | h)
      · exact Or.inl h
      · exact Or.inr (h ▸ List.mem_cons_self x rest)
      · exact Or.inr (List.mem_cons_of_mem _ h)
    · rintro (h | h)
      · exact Or.inl (Or.inl h)
      · rcases List.mem_cons.mp h with h' | h'
        · exact Or.inl (Or.inr h')
        · exact Or.inr h'

theorem mem_extractedLedgerIds (content : String) (v : String) :
    v ∈ extractedLedgerIds content ↔
      ∃ line ∈ splitPred (fun c => c = '\n') content.data,
        truthyId line = some v.data := by
  unfold extractedLedgerIds
  rw [mem_addUnique]
  simp only [List.not_mem_nil, false_or, List.mem_filterMap, Option.map_eq_some']
  constructor
  · rintro ⟨line, hline, l, hid, he⟩
    exact ⟨line, hline, by rw [hid, ← he]⟩
  · rintro ⟨line, hline, hid⟩
    exact ⟨line, hline, v.data, hid, rfl⟩

theorem readExistingVideoIds_getD (content : Option String) :
    readExistingVideoIds content = extractedLedgerIds (content.getD "") := by
  cases content with
  | none => rfl
  | some c => rfl

theorem truthyId_nil : truthyId ([] : List Char) = none := rfl

theorem extractedLedgerIds_append_mem (c b : String)
    (hterm : c.data = [] ∨ c.data.getLast? = some '\n') (v : String) :
    (v ∈ extractedLedgerIds c ∨
      ∃ line ∈ splitPred (fun ch => ch = '\n') b.data, truthyId line = some v.data) →
    v ∈ extractedLedgerIds (c ++ b) := by
  intro h
  rw [mem_extractedLedgerIds]
  rw [mem_extractedLedgerIds] at h
  have hdata : (c ++ b).data = c.data ++ b.data := String.data_append c b
  rcases hterm with hc | hc
  · rw [hdata, hc, List.nil_append]
    rcases h with ⟨line, hline, hid⟩ | h
    · rw [hc] at hline
      exfalso
      have : line = [] := by simpa [splitPred] using hline
      rw [this, truthyId_nil] at hid
      exact Option.noConfusion hid
    · exact h
  · obtain ⟨c', hc'⟩ := List.getLast?_eq_some_iff.mp hc
    have hsplit : splitPred (fun ch => ch = '\n') (c ++ b).data =
        splitPred (fun ch => ch = '\n') c' ++ splitPred (fun ch => ch = '\n') b.data := by
      rw [hdata, hc']
      have : (c' ++ ['\n']) ++ b.data = c' ++ '\n' :: b.data := by
        simp [List.append_assoc]
      rw [this, splitPred_append_sep _ _ _ '\n' (by decide)]
    have hsplitc : splitPred (fun ch => ch = '\n') c.data =
        splitPred (fun ch => ch = '\n') c' ++ [[]] := by
      rw [hc', show c' ++ ['\n'] = c' ++ '\n' :: [] from rfl,
        splitPred_append_sep _ _ _ '\n' (by decide)]
      rfl
    rw [hsplit]
    rcases h with ⟨line, hline, hid⟩ | ⟨line, hline, hid⟩
    · rw [hsplitc] at hline
      rcases List.mem_append.mp hline with h1 | h1
      · exact ⟨line, List.mem_append.mpr (Or.inl h1), hid⟩
      · exfalso
        have : line = [] := by simpa using h1
        rw [this, truthyId_nil] at hid
        exact Option.noConfusion hid
    · exact ⟨line, List.mem_append.mpr (Or.inr hline), hid⟩

theorem appendLoop_all_skip (wt : Bool) (ts : String) :
    ∀ (ids existing : List String),
      (∀ v ∈ ids, existing.contains v = true) →
      appendLoop wt ts existing ids = ("", [], []) := by
  intro ids
  induction ids with
  | nil => intro existing _; rfl
  | cons x rest ih =>
    intro existing h
    rw [appendLoop_cons_skip wt ts existing x rest (h x (List.mem_cons_self x rest))]
    exact ih existing (fun v hv => h v (List.mem_cons_of_mem _ hv))

theorem appendNewLiveLinks_all_present (content : Option String) (ids : List String)
    (wt : Bool) (ts : String)
    (hpresent : ∀ v ∈ ids, v ∈ readExistingVideoIds content) :
    appendNewLiveLinks content ids wt ts = ⟨content, [], []⟩ := by
  unfold appendNewLiveLinks
  cases hie : ids.isEmpty with
  | true => simp [hie]
  | false =>
    simp only [hie, Bool.false_eq_true, if_false]
    rw [appendLoop_all_skip wt ts ids _
      (fun v hv => List.elem_iff.mpr (hpresent v hv))]
    rfl

theorem appendNewLiveLinks_unfold_nonempty (content : Option String)
    (ids : List String) (wt : Bool) (ts : String) (hie : ids.isEmpty = false) :
    appendNewLiveLinks content ids wt ts =
      ⟨if (appendLoop wt ts (readExistingVideoIds content) ids).1 = "" then content
        else some (content.getD "" ++
          (appendLoop wt ts (readExistingVideoIds content) ids).1),
       (appendLoop wt ts (readExistingVideoIds content) ids).2.1,
       (appendLoop wt ts (readExistingVideoIds content) ids).2.2⟩ := by
  unfold appendNewLiveLinks
  simp only [hie, Bool.false_eq_true, if_false]

theorem ledgerTerminated_base (content : Option String)
    (hterm : ledgerTerminated content) :
    (content.getD "").data = [] ∨ (content.getD "").data.getLast? = some '\n' := by
  cases content with
  | none => exact Or.inl rfl
  | some c => exact hterm

/-- C1 (amended): for a ledger file whose existing content is absent,
empty, or newline-terminated, and a list of well-formed 11-character video
ids, a second `appendNewLiveLinks` with the same id list appends nothing:
it returns empty saved lists and leaves the file content unchanged.
(`ts₁` is the first call's timestamp, assumed whitespace-free as the
ISO-8601 stamps the program writes are; without the newline-termination
hypothesis the claim is false — see the counterexample.) -/
theorem ledger_append_idempotent (content : Option String) (ids : List String)
    (wt : Bool) (ts₁ ts₂ : String)
    (hterm : ledgerTerminated content)
    (hids : ∀ v ∈ ids, isValidVideoId v)
    (hts : ∀ c ∈ ts₁.data, jsWhitespace c = false) :
    appendNewLiveLinks (appendNewLiveLinks content ids wt ts₁).newContent ids wt ts₂ =
      ⟨(appendNewLiveLinks content ids wt ts₁).newContent, [], []⟩ := by
  apply appendNewLiveLinks_all_present
  intro v hv
  cases hie : ids.isEmpty with
  | true =>
    rw [List.isEmpty_iff] at hie
    subst hie
    exact absurd hv (List.not_mem_nil v)
  | false =>
    rw [appendNewLiveLinks_unfold_nonempty content ids wt ts₁ hie]
    rcases appendLoop_covers wt ts₁ ids (readExistingVideoIds content) v hv with
      hin | hsaved
    · by_cases hbuf : (appendLoop wt ts₁ (readExistingVideoIds content) ids).1 = ""
      · simpa [hbuf] using hin
      · show v ∈ readExistingVideoIds
          (if (appendLoop wt ts₁ (readExistingVideoIds content) ids).1 = "" then content
           else some (content.getD "" ++
             (appendLoop wt ts₁ (readExistingVideoIds content) ids).1))
        rw [if_neg hbuf]
        show v ∈ readExistingVideoIds (some _)
        rw [readExistingVideoIds_getD]
        show v ∈ extractedLedgerIds (content.getD "" ++ _)
        apply extractedLedgerIds_append_mem _ _ (ledgerTerminated_base content hterm)
        left
        rw [← readExistingVideoIds_getD]
        exact hin
    · obtain ⟨line, hline, hid⟩ := appendLoop_saved_line wt ts₁ hts ids
        (readExistingVideoIds content) hids v hsaved
      by_cases hbuf : (appendLoop wt ts₁ (readExistingVideoIds content) ids).1 = ""
      · exfalso
        rw [hbuf] at hline
        have hnil : line = [] := by simpa [splitPred] using hline
        rw [hnil, truthyId_nil] at hid
        exact Option.noConfusion hid
      · show v ∈ readExistingVideoIds
          (if (appendLoop wt ts₁ (readExistingVideoIds content) ids).1 = "" then content
           else some (content.getD "" ++
             (appendLoop wt ts₁ (readExistingVideoIds content) ids).1))
        rw [if_neg hbuf]
        show v ∈ readExistingVideoIds (some _)
        rw [readExistingVideoIds_getD]
        show v ∈ extractedLedgerIds (content.getD "" ++ _)
        apply extractedLedgerIds_append_mem _ _ (ledgerTerminated_base content hterm)
        right
        exact ⟨line, hline, hid⟩

theorem ledger_append_idempotent_witness :
    appendNewLiveLinks (appendNewLiveLinks none ["abc12345678"] false "").newContent
        ["abc12345678"] false "" =
      ⟨(appendNewLiveLinks none ["abc12345678"] false "").newContent, [], []⟩ :=
  ledger_append_idempotent none ["abc12345678"] false "" "" trivial
    (by intro v hv; rw [List.mem_singleton.mp hv]; decide)
    (by intro c hc; exact absurd hc (List.not_mem_nil c))

theorem ledger_append_not_idempotent_counterexample :
    (appendNewLiveLinks
        (appendNewLiveLinks (some "https://www.youtube.com/watch?v=AAAAAAAAAAA")
          ["BBBBBBBBBBB"] false "").newContent
        ["BBBBBBBBBBB"] false "").savedVideoIds = ["BBBBBBBBBBB"] ∧
    (appendNewLiveLinks (some "https://www.youtube.com/watch?v=AAAAAAAAAAA")
        ["BBBBBBBBBBB"] false "").savedVideoIds = ["BBBBBBBBBBB"] := by
  refine ⟨?_, ?_⟩ <;> rfl

/-- C7: `appendNewLiveLinks` returns the newly appended video ids and their
canonical watch URLs — both empty (with the file untouched) when every
input id is already extractable from the file — and, called on a missing
ledger with ids `["abc12345678"]`, returns the canonical watch URL and
leaves a file with exactly one non-blank line. -/
theorem ledger_append_return_contract :
    (∀ (content : Option String) (ids : List String) (wt : Bool) (ts : String),
        (∀ v ∈ ids, v ∈ readExistingVideoIds content) →
        appendNewLiveLinks content ids wt ts = ⟨content, [], []⟩) ∧
    (∀ ts : String,
        appendNewLiveLinks none ["abc12345678"] false ts =
          ⟨some "https://www.youtube.com/watch?v=abc12345678\n", ["abc12345678"],
           ["https://www.youtube.com/watch?v=abc12345678"]⟩ ∧
        ledgerNonblankLineCount
          (appendNewLiveLinks none ["abc12345678"] false ts).newContent = 1) := by
  refine ⟨appendNewLiveLinks_all_present, fun ts => ⟨?_, ?_⟩⟩ <;> rfl

theorem ledger_append_return_contract_witness :
    appendNewLiveLinks (some "https://www.youtube.com/watch?v=abc12345678\n")
        ["abc12345678"] false "" =
      ⟨some "https://www.youtube.com/watch?v=abc12345678\n", [], []⟩ ∧
    appendNewLiveLinks none ["abc12345678"] false "" =
      ⟨some "https://www.youtube.com/watch?v=abc12345678\n", ["abc12345678"],
       ["https://www.youtube.com/watch?v=abc12345678"]⟩ :=
  ⟨ledger_append_return_contract.1 (some "https://www.youtube.com/watch?v=abc12345678\n")
      ["abc12345678"] false ""
      (by intro v hv; rw [List.mem_singleton.mp hv]; decide),
   (ledger_append_return_contract.2 "").1⟩
